import Mathlib

/-!
# cliProxyAPI-Dashboard: admission control, usage overview, model policy

A shallow embedding of

* `internal/api/ratelimit/limiter.go` (`Manager`, `GetLimiter`, `Allow`),
* `internal/api/handlers/management/usage.go` (`GetUsageStatistics`,
  `ImportUsageStatistics`),
* `internal/api/middleware/model_policy.go` (`EnforceModelPolicy`),

together with the part of the token bucket of `golang.org/x/time/rate` that
`limiter.go` calls (`NewLimiter`, `Limit`, `SetLimit`, `SetBurst`, `Allow`) and
its method `TokensAt`, which reads the tokens a limiter has on offer.

Conventions of the embedding.

* Go `int`, `int64` and `time.Duration` values are `Int`.  The sums of the
  usage counters wrap around at 64 bits (`wrapInt64`); the integer operations
  of the limiter are the exact ones, the difference of two clock values
  saturating as `Time.Sub` does.
* Go `float64` values (`rate.Limit`, the token count, the cost figures) are the
  rationals they denote, and every floating-point operation of the modelled
  code (a conversion from an integer, a sum, a difference, a product, a
  quotient) is the exact result rounded to the nearest `float64` (`float64`
  below), one rounding per operation and no operation fused with another.  The
  conversion `time.Duration(x)` of a float to an integer number of nanoseconds
  truncates toward zero, as in Go.
* A Go `map[string]V` is an association list with one binding per key.
* `*rate.Limiter` values are addresses into a heap of limiters owned by the
  manager, so that "the same instance" is "the same address".
* The clock is explicit: every `time.Now()` read is an argument.
* The locks are not modelled: each call runs to completion on its own.
-/

namespace CliProxy

/-! ## Go maps with string keys -/

/-- A Go `map[string]V`: bindings in insertion order, one per key. -/
abbrev GoMap (V : Type) := List (String × V)

namespace GoMap

/-- The read `v, ok := m[k]`. -/
def get {V : Type} : GoMap V → String → Option V
  | [], _ => none
  | (k', v) :: rest, k => if k' = k then some v else get rest k

/-- The write `m[k] = v`: replaces the binding of `k` or adds one. -/
def set {V : Type} : GoMap V → String → V → GoMap V
  | [], k, v => [(k, v)]
  | (k', v') :: rest, k, v =>
    if k' = k then (k, v) :: rest else (k', v') :: set rest k v

/-- The keys bound in the map. -/
def keys {V : Type} (m : GoMap V) : List String := m.map Prod.fst

end GoMap

/-! ## Rounding to `float64` -/

/-- Rounding of a rational to the nearest integer, a tie going to the even
one. -/
def roundEven (y : ℚ) : ℤ :=
  if y - ⌊y⌋ < 1 / 2 then ⌊y⌋
  else if 1 / 2 < y - ⌊y⌋ then ⌊y⌋ + 1
  else if ⌊y⌋ % 2 = 0 then ⌊y⌋ else ⌊y⌋ + 1

/-- The `float64` nearest to `x` (IEEE 754 binary64, round to nearest, ties to
even): 53 significant bits, so the spacing in the binade of `x` is
`2 ^ (⌊log₂ |x|⌋ - 52)`.  The exponent is not bounded: overflow and subnormal
numbers, which no value of the modelled code reaches, are left out. -/
def float64 (x : ℚ) : ℚ :=
  if x = 0 then 0
  else (roundEven (x / (2 : ℚ) ^ (Int.log 2 |x| - 52)) : ℚ) * (2 : ℚ) ^ (Int.log 2 |x| - 52)

/-! ## The token bucket of `golang.org/x/time/rate` -/

namespace rate

/-- Nanoseconds since the zero `time.Time`. -/
abbrev Time := Int

/-- A `time.Duration`: a signed count of nanoseconds. -/
abbrev Duration := Int

/-- The type `rate.Limit`: events per second. -/
abbrev Limit := ℚ

/-- The constant `rate.Inf = Limit(math.MaxFloat64)`. -/
def Inf : Limit := 2 ^ 1024 - 2 ^ 971

/-- The constant `rate.InfDuration = time.Duration(math.MaxInt64)`. -/
def InfDuration : Duration := 2 ^ 63 - 1

/-- The constant `time.Second` in nanoseconds. -/
def Second : Duration := 1000000000

/-- The struct `rate.Limiter` without its mutex. -/
structure Limiter where
  limit : Limit
  burst : Int
  tokens : ℚ
  last : Time
  lastEvent : Time
  deriving DecidableEq

/-- The constructor `rate.NewLimiter(r, b)`: a full bucket (`tokens:
float64(b)`), zero timestamps. -/
def NewLimiter (r : Limit) (b : Int) : Limiter :=
  { limit := r, burst := b, tokens := float64 b, last := 0, lastEvent := 0 }

/-- The subtraction `t.Sub(u)`, which saturates at the extreme durations. -/
def Time.Sub (t u : Time) : Duration :=
  if t - u > InfDuration then InfDuration
  else if t - u < -InfDuration - 1 then -InfDuration - 1
  else t - u

/-- The conversion `time.Duration(x)` of a float: truncation toward zero. -/
def truncate (x : ℚ) : Int := if 0 ≤ x then ⌊x⌋ else ⌈x⌉

/-- The method `Duration.Seconds()`: with `sec := d / Second` and
`nsec := d % Second` (integer division truncating toward zero), the value
`float64(sec) + float64(nsec)/1e9`. -/
def Duration.Seconds (d : Duration) : ℚ :=
  float64
    (float64 (Int.tdiv d Second) + float64 (float64 (Int.tmod d Second) / 1000000000))

/-- The method `Limit.tokensFromDuration`: tokens accrued during `d`,
`d.Seconds() * float64(limit)`. -/
def tokensFromDuration (limit : Limit) (d : Duration) : ℚ :=
  if limit ≤ 0 then 0 else float64 (Duration.Seconds d * limit)

/-- The method `Limit.durationFromTokens`: time needed to accrue `tokens`,
`time.Duration((tokens / float64(limit)) * float64(time.Second))`, capped at
`InfDuration` when the product exceeds `float64(math.MaxInt64)`. -/
def durationFromTokens (limit : Limit) (tokens : ℚ) : Duration :=
  if limit ≤ 0 then InfDuration
  else
    let duration := float64 (float64 (tokens / limit) * float64 (Second : ℚ))
    if duration > float64 ((2 : ℚ) ^ 63 - 1) then InfDuration else truncate duration

/-- The method `Limiter.advance`: the token count the bucket would hold at `t`,
without storing it. -/
def Limiter.advance (lim : Limiter) (t : Time) : Time × ℚ :=
  let last := if t < lim.last then t else lim.last
  let elapsed := Time.Sub t last
  let delta := tokensFromDuration lim.limit elapsed
  let tokens := float64 (lim.tokens + delta)
  let tokens := if tokens > float64 lim.burst then float64 lim.burst else tokens
  (t, tokens)

/-- The method `Limiter.TokensAt(t)`: the number of tokens available at `t`. -/
def Limiter.TokensAt (lim : Limiter) (t : Time) : ℚ := (lim.advance t).2

/-- The method `Limiter.reserveN(t, n, maxFutureReserve)`, reduced to the new
limiter state and the `ok` flag of the reservation: the request is granted when
`n` fits the burst and the wait for the missing tokens, in whole nanoseconds,
does not exceed `maxFutureReserve`. -/
def Limiter.reserveN (lim : Limiter) (t : Time) (n : Int)
    (maxFutureReserve : Duration) : Limiter × Bool :=
  if lim.limit = Inf then (lim, true)
  else if lim.limit = 0 then
    if lim.burst ≥ n then ({ lim with burst := lim.burst - n }, true)
    else (lim, false)
  else
    let (t, tokens) := lim.advance t
    let tokens := float64 (tokens - float64 n)
    let waitDuration : Duration :=
      if tokens < 0 then durationFromTokens lim.limit (-tokens) else 0
    if n ≤ lim.burst ∧ waitDuration ≤ maxFutureReserve then
      ({ lim with last := t, tokens := tokens, lastEvent := t + waitDuration }, true)
    else (lim, false)

/-- The method `Limiter.Allow()` read at clock value `now`:
`AllowN(time.Now(), 1)`, that is `reserveN(now, 1, 0).ok`. -/
def Limiter.Allow (lim : Limiter) (now : Time) : Limiter × Bool :=
  lim.reserveN now 1 0

/-- The method `Limiter.SetLimitAt(t, newLimit)`. -/
def Limiter.SetLimitAt (lim : Limiter) (t : Time) (newLimit : Limit) : Limiter :=
  let (t, tokens) := lim.advance t
  { lim with last := t, tokens := tokens, limit := newLimit }

/-- The method `Limiter.SetBurstAt(t, newBurst)`. -/
def Limiter.SetBurstAt (lim : Limiter) (t : Time) (newBurst : Int) : Limiter :=
  let (t, tokens) := lim.advance t
  { lim with last := t, tokens := tokens, burst := newBurst }

end rate

/-! ## `internal/api/ratelimit/limiter.go` -/

namespace ratelimit

open rate

/-- The struct `Manager`: the registry `limiters` maps a key to the address of
its limiter, `heap` holds the limiters the manager has allocated. -/
structure Manager where
  limiters : GoMap Nat
  heap : List Limiter

/-- The constructor `NewManager()`. -/
def NewManager : Manager := { limiters := [], heap := [] }

/-- The expression `rate.Limit(limitRPM) / 60.0`: the conversion of the integer
and the quotient are both rounded to `float64`. -/
def perSecond (limitRPM : Int) : Limit := float64 (float64 limitRPM / 60)

/-- The method `Manager.GetLimiter(key, limitRPM)`.  `tLimit` and `tBurst` are the
clock values read by `SetLimit` and `SetBurst`.  Returns the address of the
limiter and the new manager state.  An address outside the heap cannot be
stored in the registry by this code; the function returns it unchanged. -/
def Manager.GetLimiter (m : Manager) (key : String) (limitRPM : Int)
    (tLimit tBurst : Time) : Nat × Manager :=
  -- optimistic read under the shared lock
  let fast : Option Nat :=
    match m.limiters.get key with
    | some p =>
      match m.heap[p]? with
      | some limiter => if limiter.limit = perSecond limitRPM then some p else none
      | none => some p
    | none => none
  match fast with
  | some p => (p, m)
  | none =>
    -- double check under the exclusive lock
    match m.limiters.get key with
    | some p =>
      match m.heap[p]? with
      | some limiter =>
        if limiter.limit = perSecond limitRPM then (p, m)
        else
          let limiter := limiter.SetLimitAt tLimit (perSecond limitRPM)
          let limiter := limiter.SetBurstAt tBurst limitRPM
          (p, { m with heap := m.heap.set p limiter })
      | none => (p, m)
    | none =>
      let r : Limit := perSecond limitRPM
      let newLimiter := NewLimiter r limitRPM
      (m.heap.length,
        { limiters := m.limiters.set key m.heap.length, heap := m.heap ++ [newLimiter] })

/-- The method `Manager.Allow(key, limitRPM)`.  `tAllow` is the clock value read
by `limiter.Allow()`. -/
def Manager.Allow (m : Manager) (key : String) (limitRPM : Int)
    (tLimit tBurst tAllow : Time) : Bool × Manager :=
  if limitRPM ≤ 0 then (true, m)
  else
    let (p, m) := m.GetLimiter key limitRPM tLimit tBurst
    match m.heap[p]? with
    | some limiter =>
      let (limiter, ok) := limiter.Allow tAllow
      (ok, { m with heap := m.heap.set p limiter })
    | none => (false, m)

/-- The outcomes of `count` consecutive calls `Allow(key, limitRPM)`, every clock
read of every call returning the same instant `now`. -/
def allowRepeated (key : String) (limitRPM : Int) (now : Time) :
    Nat → Manager → List Bool × Manager
  | 0, m => ([], m)
  | count + 1, m =>
    let (ok, m) := m.Allow key limitRPM now now now
    let (oks, m) := allowRepeated key limitRPM now count m
    (ok :: oks, m)

/-- The manager states the program can be in: `NewManager()` followed by any
calls of `GetLimiter` and `Allow`, at any clock values. -/
inductive Reachable : Manager → Prop
  | init : Reachable NewManager
  | getLimiter (m : Manager) (key : String) (limitRPM : Int) (tLimit tBurst : Time) :
      Reachable m → Reachable (m.GetLimiter key limitRPM tLimit tBurst).2
  | allow (m : Manager) (key : String) (limitRPM : Int) (tLimit tBurst tAllow : Time) :
      Reachable m → Reachable (m.Allow key limitRPM tLimit tBurst tAllow).2

/-- The registry maps `key` to address `p`, which holds a limiter configured for
`N` requests per minute that would report `j` tokens at time `now`. -/
def HoldsBucket (m : Manager) (key : String) (p : Nat) (N : Int) (now : Time) (j : ℚ) : Prop :=
  m.limiters.get key = some p ∧
    ∃ l, m.heap[p]? = some l ∧ l.limit = perSecond N ∧ l.burst = N ∧ (l.advance now).2 = j

/-- The registry is well formed: every address it holds lies in the heap and no
two keys share an address. -/
def WellFormed (m : Manager) : Prop :=
  (∀ key p, m.limiters.get key = some p → p < m.heap.length) ∧
    ∀ key key' p, m.limiters.get key = some p → m.limiters.get key' = some p → key = key'

/-- Every limiter of the heap has `rate = rate.Limit(burst) / 60.0`. -/
def Consistent (m : Manager) : Prop :=
  ∀ l ∈ m.heap, l.limit = perSecond l.burst

/-- Every limiter of the heap stores a token count that is a `float64`. -/
def TokensRounded (m : Manager) : Prop :=
  ∀ l ∈ m.heap, float64 l.tokens = l.tokens

end ratelimit

/-! ## Types of `internal/usage` and `internal/database` -/

namespace usage

/-- The value a Go `int64` holds after an operation whose exact result is `x`:
`x` reduced modulo `2 ^ 64` into `[-2 ^ 63, 2 ^ 63)`. -/
def wrapInt64 (x : Int) : Int := (x + 2 ^ 63) % 2 ^ 64 - 2 ^ 63

/-- Modelled from the spec: the type `usage.ModelSnapshot`, declared in
`internal/usage`, with the two counters that `usage.go` writes (the optional
per-model details are left at their zero value there and are not carried). -/
structure ModelSnapshot where
  TotalRequests : Int
  TotalTokens : Int
  deriving DecidableEq

/-- Modelled from the spec: the type `usage.APISnapshot`, declared in
`internal/usage`: a source's totals, 64-bit integers, and its per-model
mapping. -/
structure APISnapshot where
  TotalRequests : Int
  TotalTokens : Int
  Models : GoMap ModelSnapshot
  deriving DecidableEq

/-- Modelled from the spec: the type `usage.StatisticsSnapshot`, declared in
`internal/usage`: the grand totals, the cost figures and the per-source mapping
(`none` is the nil map). -/
structure StatisticsSnapshot where
  TotalRequests : Int
  TotalTokens : Int
  SuccessCount : Int
  FailureCount : Int
  TotalCost : ℚ
  Cost24h : ℚ
  Cost7d : ℚ
  APIs : Option (GoMap APISnapshot)
  deriving DecidableEq

/-- Modelled from the spec: the type `usage.MergeResult`, declared in
`internal/usage`: entries incorporated and entries recognised as present. -/
structure MergeResult where
  Added : Int
  Skipped : Int
  deriving DecidableEq

/-- The zero value of `usage.StatisticsSnapshot`. -/
def StatisticsSnapshot.zero : StatisticsSnapshot :=
  { TotalRequests := 0, TotalTokens := 0, SuccessCount := 0, FailureCount := 0,
    TotalCost := 0, Cost24h := 0, Cost7d := 0, APIs := none }

end usage

namespace database

/-- Modelled from the spec: the result type of `database.GetGlobalStats`,
declared in `internal/database`: the four persistent grand totals. -/
structure GlobalStats where
  TotalRequests : Int
  TotalTokens : Int
  SuccessCount : Int
  FailureCount : Int
  deriving DecidableEq

/-- Modelled from the spec: the element type of the result of
`database.GetAggregatedModelStats`, declared in `internal/database`. -/
structure ModelStats where
  Model : String
  TotalRequests : Int
  TotalTokens : Int
  deriving DecidableEq

/-- Modelled from the spec: the type `database.ManagedKey`, declared in
`internal/database`, with the one field the middleware reads. -/
structure ManagedKey where
  AllowedModels : List String
  deriving DecidableEq

end database

/-! ## `internal/api/handlers/management/usage.go` -/

namespace management

open usage

/-- The struct `usageImportPayload`. -/
structure usageImportPayload where
  Version : Int
  Usage : StatisticsSnapshot
  deriving DecidableEq

/-- The part of `Handler` that `usage.go` reads: the pointer `usageStats`
(`none` is nil) to the usage ledger.  The ledger `usage.RequestStatistics` is
declared in `internal/usage`; its state is a value of the type `Ledger`, and
its two methods are arguments of the handlers below: `Snapshot` returns the
current totals, `MergeSnapshot` incorporates a snapshot and returns the merge
counts with the new ledger state. -/
structure Handler (Ledger : Type) where
  usageStats : Option Ledger

/-- The JSON response of the overview endpoint, sent with status 200. -/
structure OverviewResponse where
  status : Nat
  usage : StatisticsSnapshot
  failed_requests : Int
  deriving DecidableEq

/-- The in-memory snapshot `GetUsageStatistics` starts from: the zero value
unless the handler and its ledger are present. -/
def liveSnapshot {Ledger : Type} (Snapshot : Ledger → StatisticsSnapshot)
    (h : Option (Handler Ledger)) : StatisticsSnapshot :=
  match h with
  | some handler =>
    match handler.usageStats with
    | some stats => Snapshot stats
    | none => StatisticsSnapshot.zero
  | none => StatisticsSnapshot.zero

/-- The loop of `GetUsageStatistics` over the aggregated model statistics,
from the accumulator `dbApi`; the two `+=` are 64-bit additions. -/
def accumulateModelStats : APISnapshot → List database.ModelStats → APISnapshot
  | dbApi, [] => dbApi
  | dbApi, ms :: rest =>
    accumulateModelStats
      { TotalRequests := wrapInt64 (dbApi.TotalRequests + ms.TotalRequests),
        TotalTokens := wrapInt64 (dbApi.TotalTokens + ms.TotalTokens),
        Models := dbApi.Models.set ms.Model
          { TotalRequests := ms.TotalRequests, TotalTokens := ms.TotalTokens } }
      rest

/-- The method `Handler.GetUsageStatistics`.  The three arguments after the
handler are the outcomes of `database.GetGlobalStats`,
`database.GetPeriodCosts` and `database.GetAggregatedModelStats`. -/
def GetUsageStatistics {Ledger : Type} (Snapshot : Ledger → StatisticsSnapshot)
    (h : Option (Handler Ledger))
    (globalStats : Except String database.GlobalStats)
    (periodCosts : Except String (ℚ × ℚ × ℚ))
    (modelStats : Except String (List database.ModelStats)) : OverviewResponse :=
  let snapshot := liveSnapshot Snapshot h
  let snapshot :=
    match globalStats with
    | .ok globalStats =>
      { snapshot with
        TotalRequests := globalStats.TotalRequests
        TotalTokens := globalStats.TotalTokens
        SuccessCount := globalStats.SuccessCount
        FailureCount := globalStats.FailureCount }
    | .error _ => snapshot
  let snapshot :=
    match periodCosts with
    | .ok (c24, c7d, cTot) => { snapshot with Cost24h := c24, Cost7d := c7d, TotalCost := cTot }
    | .error _ => snapshot
  let snapshot :=
    match modelStats with
    | .ok (ms :: rest) =>
      let snapshot :=
        if snapshot.APIs = none then { snapshot with APIs := some [] } else snapshot
      let dbApi := accumulateModelStats
        { TotalRequests := 0, TotalTokens := 0, Models := [] } (ms :: rest)
      { snapshot with APIs := some [("persistent_db_source", dbApi)] }
    | .ok [] => snapshot
    | .error _ => snapshot
  { status := 200, usage := snapshot, failed_requests := snapshot.FailureCount }

/-- The binding the loop stores for one element of the provider's list. -/
def modelBinding (ms : database.ModelStats) : String × ModelSnapshot :=
  (ms.Model, { TotalRequests := ms.TotalRequests, TotalTokens := ms.TotalTokens })

/-- The members of an import document that `encoding/json` found present and
well typed. -/
structure ImportDocument where
  version : Option Int
  usage : Option StatisticsSnapshot

/-- The call `json.Unmarshal(data, &payload)`: `parse` is the decoder of
`encoding/json` (`none` when the bytes are rejected); the members present in
the document are stored, the others keep the value `payload` had. -/
def jsonUnmarshal (parse : List UInt8 → Option ImportDocument) (data : List UInt8)
    (payload : usageImportPayload) : Except String usageImportPayload :=
  match parse data with
  | none => .error "json: cannot unmarshal"
  | some doc =>
    .ok { Version := doc.version.getD payload.Version, Usage := doc.usage.getD payload.Usage }

/-- The JSON responses of the import endpoint. -/
inductive ImportResponse where
  | rejected (status : Nat) (error : String)
  | merged (status : Nat) (added skipped total_requests failed_requests : Int)
  deriving DecidableEq

/-- The method `Handler.ImportUsageStatistics`.  `rawData` is the outcome of
`c.GetRawData()`.  Returns the response and the ledger pointer of the handler
after the call. -/
def ImportUsageStatistics {Ledger : Type} (Snapshot : Ledger → StatisticsSnapshot)
    (MergeSnapshot : Ledger → StatisticsSnapshot → MergeResult × Ledger)
    (parse : List UInt8 → Option ImportDocument) (h : Option (Handler Ledger))
    (rawData : Except String (List UInt8)) : ImportResponse × Option (Handler Ledger) :=
  match h with
  | none => (.rejected 400 "usage statistics unavailable", h)
  | some handler =>
    match handler.usageStats with
    | none => (.rejected 400 "usage statistics unavailable", h)
    | some stats =>
      match rawData with
      | .error _ => (.rejected 400 "failed to read request body", h)
      | .ok data =>
        let payload : usageImportPayload := { Version := 0, Usage := StatisticsSnapshot.zero }
        match jsonUnmarshal parse data payload with
        | .error _ => (.rejected 400 "invalid json", h)
        | .ok payload =>
          if payload.Version ≠ 0 ∧ payload.Version ≠ 1 then
            (.rejected 400 "unsupported version", h)
          else
            let (result, stats) := MergeSnapshot stats payload.Usage
            let snapshot := Snapshot stats
            (.merged 200 result.Added result.Skipped snapshot.TotalRequests
                snapshot.FailureCount,
              some { handler with usageStats := some stats })

end management

/-! ## `internal/api/middleware/model_policy.go` -/

namespace middleware

/-- A value stored in the request context under `"managedKey"`: a
`*database.ManagedKey` (possibly nil) or a value of another type. -/
inductive ContextValue where
  | managedKey (key : Option database.ManagedKey)
  | other
  deriving DecidableEq

/-- The part of `gin.Context` the middleware reads: the context entry
`"managedKey"` (`none` when unset) and the outcome of `io.ReadAll` on the
request body. -/
structure Context where
  managedKey : Option ContextValue
  body : Except String (List UInt8)

/-- The JSON bodies the middleware aborts with. -/
inductive AbortBody where
  | error (message : String)
  | permission (message type code : String)
  deriving DecidableEq

/-- What the middleware does with the request: `next` hands it to the following
handlers (`c.Next()`), `abort` answers it and stops the chain
(`c.AbortWithStatusJSON`). -/
inductive Outcome where
  | next
  | abort (status : Nat) (body : AbortBody)
  deriving DecidableEq

/-- The loop of `EnforceModelPolicy` over `managedKey.AllowedModels`. -/
def allowedLoop (model : String) : List String → Bool
  | [] => false
  | m :: rest => if m = model then true else allowedLoop model rest

/-- The handler returned by `EnforceModelPolicy()`.  `gjsonGet body path` is
`gjson.GetBytes(body, path).String()`. -/
def EnforceModelPolicy (gjsonGet : List UInt8 → String → String) (c : Context) : Outcome :=
  match c.managedKey with
  | none => .next
  | some val =>
    match val with
    | .other => .next
    | .managedKey none => .next
    | .managedKey (some managedKey) =>
      if managedKey.AllowedModels.length = 0 then .next
      else
        match c.body with
        | .error _ => .abort 400 (.error "failed to read request body")
        | .ok bodyBytes =>
          let model := gjsonGet bodyBytes "model"
          if model = "" then .next
          else
            let allowed := allowedLoop model managedKey.AllowedModels
            if !allowed then
              .abort 403
                (.permission ("Model '" ++ model ++ "' is not allowed for this API key")
                  "permission_error" "model_not_allowed")
            else .next

/-- The reading of `gjson.GetBytes(body, path).String()` on a body that has no
member at `path`: the empty string. -/
def gjsonGetAbsent : List UInt8 → String → String := fun _ _ => ""

end middleware


/-! ### Map lemmas -/

theorem GoMap.get_set_self {V : Type} (m : GoMap V) (k : String) (v : V) :
    (m.set k v).get k = some v := by
  induction m with
  | nil => simp [GoMap.set, GoMap.get]
  | cons e rest ih =>
    obtain ⟨k', v'⟩ := e
    by_cases h : k' = k
    · simp [GoMap.set, GoMap.get, h]
    · simp [GoMap.set, GoMap.get, h, ih]

theorem GoMap.get_set_ne {V : Type} (m : GoMap V) (k k' : String) (v : V) (hne : k' ≠ k) :
    (m.set k v).get k' = m.get k' := by
  induction m with
  | nil =>
    have : ¬ k = k' := fun h => hne h.symm
    simp [GoMap.set, GoMap.get, this]
  | cons e rest ih =>
    obtain ⟨k0, v0⟩ := e
    by_cases h : k0 = k
    · subst h
      have : ¬ k0 = k' := fun h => hne h.symm
      simp [GoMap.set, GoMap.get, this]
    · by_cases h' : k0 = k'
      · subst h'
        simp [GoMap.set, GoMap.get, h]
      · simp [GoMap.set, GoMap.get, h, h', ih]

/-! ### Rounding lemmas -/

theorem roundEven_intCast (z : ℤ) : roundEven (z : ℚ) = z := by
  simp [roundEven]

theorem float64_of_multiple (x : ℚ) (k : ℤ)
    (hk : x / (2 : ℚ) ^ (Int.log 2 |x| - 52) = (k : ℚ)) : float64 x = x := by
  unfold float64
  split_ifs with h0
  · exact h0.symm
  · have hpow : (2 : ℚ) ^ (Int.log 2 |x| - 52) ≠ 0 := by positivity
    rw [hk, roundEven_intCast, ← hk]
    field_simp

theorem log_two_eq_of_bounds {r : ℚ} {e : ℤ} (hlo : (2 : ℚ) ^ e ≤ r)
    (hhi : r < (2 : ℚ) ^ (e + 1)) : Int.log 2 r = e := by
  have hr : 0 < r := lt_of_lt_of_le (by positivity) hlo
  have h1 : e ≤ Int.log 2 r := by
    rw [← Int.zpow_le_iff_le_log (by norm_num) hr]
    simpa using hlo
  have h2 : Int.log 2 r < e + 1 := by
    rw [← Int.lt_zpow_iff_log_lt (by norm_num) hr]
    simpa using hhi
  omega

theorem floor_le_roundEven (y : ℚ) : ⌊y⌋ ≤ roundEven y := by
  unfold roundEven
  split_ifs <;> omega

theorem roundEven_le_floor_add_one (y : ℚ) : roundEven y ≤ ⌊y⌋ + 1 := by
  unfold roundEven
  split_ifs <;> omega

theorem le_roundEven {k : ℤ} {y : ℚ} (h : (k : ℚ) ≤ y) : k ≤ roundEven y :=
  le_trans (Int.le_floor.mpr h) (floor_le_roundEven y)

theorem roundEven_le {k : ℤ} {y : ℚ} (h : y ≤ (k : ℚ)) : roundEven y ≤ k := by
  rcases eq_or_lt_of_le h with heq | hlt
  · rw [heq, roundEven_intCast]
  · have : ⌊y⌋ < k := Int.floor_lt.mpr hlt
    have := roundEven_le_floor_add_one y
    omega

/-- The bounds of the binade of a non-zero `x`, in units of its spacing. -/
theorem binade_bounds {x : ℚ} (hx : x ≠ 0) :
    (2 : ℚ) ^ 52 * (2 : ℚ) ^ (Int.log 2 |x| - 52) = (2 : ℚ) ^ Int.log 2 |x| ∧
      (2 : ℚ) ^ Int.log 2 |x| ≤ |x| ∧ |x| < 2 * (2 : ℚ) ^ Int.log 2 |x| := by
  have hpos : 0 < |x| := abs_pos.mpr hx
  have h1 : ((2 : ℕ) : ℚ) ^ Int.log 2 |x| ≤ |x| := Int.zpow_log_le_self (by norm_num) hpos
  have h2 : |x| < ((2 : ℕ) : ℚ) ^ (Int.log 2 |x| + 1) := Int.lt_zpow_succ_log_self (by norm_num) _
  refine ⟨?_, by simpa using h1, ?_⟩
  · rw [zpow_sub₀ (by norm_num : (2 : ℚ) ≠ 0)]
    have : (2 : ℚ) ^ (52 : ℤ) = 2 ^ 52 := by norm_num
    rw [this]
    field_simp
  · rw [zpow_add_one₀ (by norm_num : ((2 : ℕ) : ℚ) ≠ 0)] at h2
    have : ((2 : ℕ) : ℚ) = 2 := by norm_num
    rw [this] at h2
    linarith

/-- A `float64` rounds to itself. -/
theorem float64_idem (x : ℚ) : float64 (float64 x) = float64 x := by
  by_cases hx : x = 0
  · simp [hx, float64]
  obtain ⟨hu, hlo, hhi⟩ := binade_bounds hx
  have hupos : (0 : ℚ) < (2 : ℚ) ^ (Int.log 2 |x| - 52) := by positivity
  have hepos : (0 : ℚ) < (2 : ℚ) ^ Int.log 2 |x| := by positivity
  have hval : float64 x =
      (roundEven (x / (2 : ℚ) ^ (Int.log 2 |x| - 52)) : ℚ) * (2 : ℚ) ^ (Int.log 2 |x| - 52) := by
    simp [float64, hx]
  set e := Int.log 2 |x| with he
  set u := (2 : ℚ) ^ (e - 52) with hudef
  set k := roundEven (x / u) with hk
  -- the rounded significand lies between 2^52 and 2^53 in absolute value
  have hq : (2 : ℚ) ^ 52 ≤ |x / u| ∧ |x / u| < 2 ^ 53 := by
    rw [abs_div, abs_of_pos hupos]
    constructor
    · rw [le_div_iff₀ hupos, hu]
      exact hlo
    · rw [div_lt_iff₀ hupos]
      have : (2 : ℚ) ^ 53 * u = 2 * (2 : ℚ) ^ e := by
        rw [← hu]
        ring
      rw [this]
      exact hhi
  have hkabs : (2 : ℤ) ^ 52 ≤ |k| ∧ |k| ≤ 2 ^ 53 := by
    rcases le_or_lt 0 (x / u) with hnn | hneg
    · rw [abs_of_nonneg hnn] at hq
      have h1 : (2 : ℤ) ^ 52 ≤ k := le_roundEven (by push_cast; exact hq.1)
      have h2 : k ≤ (2 : ℤ) ^ 53 := roundEven_le (by push_cast; exact le_of_lt hq.2)
      rw [abs_of_nonneg (by linarith)]
      exact ⟨h1, h2⟩
    · rw [abs_of_neg hneg] at hq
      have h1 : k ≤ -(2 : ℤ) ^ 52 := roundEven_le (by push_cast; linarith [hq.1])
      have h2 : -(2 : ℤ) ^ 53 ≤ k := le_roundEven (by push_cast; linarith [hq.2])
      rw [abs_of_neg (by linarith)]
      constructor <;> linarith
  have hkq : (2 : ℚ) ^ 52 ≤ |(k : ℚ)| ∧ |(k : ℚ)| ≤ 2 ^ 53 := by
    constructor
    · exact_mod_cast hkabs.1
    · exact_mod_cast hkabs.2
  have habs : |(k : ℚ) * u| = |(k : ℚ)| * u := by
    rw [abs_mul, abs_of_pos hupos]
  rw [hval]
  rcases eq_or_lt_of_le hkabs.2 with htop | hlt
  · -- the significand rounded up to 2^53: the value is the next power of two
    have htopq : |(k : ℚ)| = 2 ^ 53 := by exact_mod_cast htop
    have hlog : Int.log 2 |(k : ℚ) * u| = e + 1 := by
      apply log_two_eq_of_bounds
      · rw [habs, htopq, zpow_add_one₀ (by norm_num : (2 : ℚ) ≠ 0), ← hu]
        apply le_of_eq
        ring
      · rw [habs, htopq, zpow_add_one₀ (by norm_num : (2 : ℚ) ≠ 0),
          zpow_add_one₀ (by norm_num : (2 : ℚ) ≠ 0), ← hu]
        nlinarith
    have hu' : (2 : ℚ) ^ (e + 1 - 52) = 2 * u := by
      have : e + 1 - 52 = (e - 52) + 1 := by ring
      rw [this, zpow_add_one₀ (by norm_num : (2 : ℚ) ≠ 0)]
      ring
    rcases abs_cases (k : ℚ) with ⟨hc, -⟩ | ⟨hc, -⟩
    · apply float64_of_multiple _ (2 ^ 52)
      rw [hlog, hu']
      have : (k : ℚ) = 2 ^ 53 := by rw [← hc, htopq]
      rw [this]
      field_simp
      ring
    · apply float64_of_multiple _ (-2 ^ 52)
      rw [hlog, hu']
      have : (k : ℚ) = -(2 ^ 53) := by linarith
      rw [this]
      field_simp
      ring
  · have hltq : |(k : ℚ)| < 2 ^ 53 := by exact_mod_cast hlt
    have hlog : Int.log 2 |(k : ℚ) * u| = e := by
      apply log_two_eq_of_bounds
      · rw [habs, ← hu]
        exact mul_le_mul_of_nonneg_right hkq.1 (le_of_lt hupos)
      · rw [habs, zpow_add_one₀ (by norm_num : (2 : ℚ) ≠ 0), ← hu]
        nlinarith
    apply float64_of_multiple _ k
    rw [hlog]
    field_simp

theorem roundEven_sub_le (y : ℚ) : |(roundEven y : ℚ) - y| ≤ 1 / 2 := by
  have h1 := Int.floor_le y
  have h2 := Int.lt_floor_add_one y
  unfold roundEven
  split_ifs with ha hb hc
  · rw [abs_le]; constructor <;> linarith
  · rw [abs_le]; push_cast; constructor <;> linarith
  · rw [abs_le]; constructor <;> linarith
  · rw [abs_le]; push_cast; constructor <;> linarith

theorem float64_zero : float64 0 = 0 := by
  simp [float64]

/-- Rounding never takes a value below an integer it is not below: for an
integer `N` with `0 < N ≤ 2 ^ 53`, `N ≤ x` gives `N ≤ float64 x`. -/
theorem float64_ge_int (N : ℤ) (hN : 0 < N) (hN53 : N ≤ 2 ^ 53) (x : ℚ)
    (hx : (N : ℚ) ≤ x) : (N : ℚ) ≤ float64 x := by
  have hNq : (1 : ℚ) ≤ (N : ℚ) := by exact_mod_cast hN
  have hN53q : (N : ℚ) ≤ 2 ^ 53 := by exact_mod_cast hN53
  have hxpos : 0 < x := by linarith
  have hx0 : x ≠ 0 := ne_of_gt hxpos
  obtain ⟨hu, hlo, hhi⟩ := binade_bounds hx0
  rw [abs_of_pos hxpos] at hu hlo hhi
  have hupos : (0 : ℚ) < (2 : ℚ) ^ (Int.log 2 x - 52) := by positivity
  have hval : float64 x =
      (roundEven (x / (2 : ℚ) ^ (Int.log 2 x - 52)) : ℚ) * (2 : ℚ) ^ (Int.log 2 x - 52) := by
    simp [float64, hx0, abs_of_pos hxpos]
  rw [hval]
  set e := Int.log 2 x with he
  set u := (2 : ℚ) ^ (e - 52) with hudef
  by_cases hbig : 53 ≤ e
  · -- the binade starts at or above 2^53
    have h52 : (((2 : ℤ) ^ 52 : ℤ) : ℚ) = (2 : ℚ) ^ 52 := by norm_num
    have hk : (2 : ℤ) ^ 52 ≤ roundEven (x / u) := by
      apply le_roundEven
      rw [h52, le_div_iff₀ hupos, hu]
      exact hlo
    have hkq : (2 : ℚ) ^ 52 ≤ (roundEven (x / u) : ℚ) := by
      rw [← h52]
      exact_mod_cast hk
    have hpow : (2 : ℚ) ^ (53 : ℤ) ≤ (2 : ℚ) ^ e := zpow_le_zpow_right₀ (by norm_num) hbig
    have h53 : (2 : ℚ) ^ (53 : ℤ) = 2 ^ 53 := by norm_num
    calc (N : ℚ) ≤ 2 ^ 53 := hN53q
      _ = (2 : ℚ) ^ (53 : ℤ) := h53.symm
      _ ≤ (2 : ℚ) ^ e := hpow
      _ = 2 ^ 52 * u := hu.symm
      _ ≤ (roundEven (x / u) : ℚ) * u := mul_le_mul_of_nonneg_right hkq (le_of_lt hupos)
  · -- the spacing is `1 / 2 ^ m`: `N` is a multiple of it
    obtain ⟨m, hm⟩ : ∃ m : ℕ, e - 52 = -(m : ℤ) := ⟨(52 - e).toNat, by omega⟩
    have hum : u = 1 / (2 : ℚ) ^ m := by
      rw [hudef, hm, zpow_neg, zpow_natCast, one_div]
    have hk : N * 2 ^ m ≤ roundEven (x / u) := by
      apply le_roundEven
      push_cast
      rw [hum]
      have h2m : (0 : ℚ) < 2 ^ m := by positivity
      rw [div_div_eq_mul_div, div_one]
      exact mul_le_mul_of_nonneg_right hx (le_of_lt h2m)
    have hkq : (N : ℚ) * 2 ^ m ≤ (roundEven (x / u) : ℚ) := by exact_mod_cast hk
    have h2m : (0 : ℚ) < 2 ^ m := by positivity
    calc (N : ℚ) = (N : ℚ) * 2 ^ m * u := by rw [hum]; field_simp
      _ ≤ (roundEven (x / u) : ℚ) * u := mul_le_mul_of_nonneg_right hkq (le_of_lt hupos)

theorem float64_error (x : ℚ) : |float64 x - x| ≤ |x| / 2 ^ 53 := by
  unfold float64
  split_ifs with h0
  · simp [h0]
  · have hx : 0 < |x| := abs_pos.mpr h0
    have hpow : (0 : ℚ) < (2 : ℚ) ^ (Int.log 2 |x| - 52) := by positivity
    have hlog : ((2 : ℕ) : ℚ) ^ Int.log 2 |x| ≤ |x| := Int.zpow_log_le_self (by norm_num) hx
    have hr := roundEven_sub_le (x / (2 : ℚ) ^ (Int.log 2 |x| - 52))
    have hsplit : (2 : ℚ) ^ (Int.log 2 |x| - 52) = (2 : ℚ) ^ Int.log 2 |x| / 2 ^ 52 := by
      rw [zpow_sub₀ (by norm_num : (2 : ℚ) ≠ 0)]
      norm_num
    have heq : (roundEven (x / (2 : ℚ) ^ (Int.log 2 |x| - 52)) : ℚ) *
          (2 : ℚ) ^ (Int.log 2 |x| - 52) - x =
        ((roundEven (x / (2 : ℚ) ^ (Int.log 2 |x| - 52)) : ℚ) -
          x / (2 : ℚ) ^ (Int.log 2 |x| - 52)) * (2 : ℚ) ^ (Int.log 2 |x| - 52) := by
      field_simp
    rw [heq, abs_mul, abs_of_pos hpow]
    calc |(roundEven (x / (2 : ℚ) ^ (Int.log 2 |x| - 52)) : ℚ) -
            x / (2 : ℚ) ^ (Int.log 2 |x| - 52)| * (2 : ℚ) ^ (Int.log 2 |x| - 52)
        ≤ 1 / 2 * (2 : ℚ) ^ (Int.log 2 |x| - 52) :=
          mul_le_mul_of_nonneg_right hr (le_of_lt hpow)
      _ = (2 : ℚ) ^ Int.log 2 |x| / 2 ^ 53 := by rw [hsplit]; ring
      _ ≤ |x| / 2 ^ 53 := by
          apply div_le_div_of_nonneg_right _ (by positivity)
          simpa using hlog

theorem float64_pos {x : ℚ} (hx : 0 < x) : 0 < float64 x := by
  have h := float64_error x
  rw [abs_of_pos hx, abs_le] at h
  have h2 : x / 2 ^ 53 < x := by
    rw [div_lt_iff₀ (by positivity)]
    nlinarith
  linarith [h.1]

theorem float64_nonneg {x : ℚ} (hx : 0 ≤ x) : 0 ≤ float64 x := by
  rcases eq_or_lt_of_le hx with h | h
  · rw [← h, float64_zero]
  · exact le_of_lt (float64_pos h)

/-- For positive `x`, rounding keeps `x` within the factors `1 ± 2 ^ -53`. -/
theorem float64_bounds {x : ℚ} (hx : 0 < x) :
    x * (1 - 1 / 2 ^ 53) ≤ float64 x ∧ float64 x ≤ x * (1 + 1 / 2 ^ 53) := by
  have h := float64_error x
  rw [abs_of_pos hx, abs_le] at h
  constructor
  · have : x * (1 - 1 / 2 ^ 53) = x - x / 2 ^ 53 := by ring
    linarith [h.1]
  · have : x * (1 + 1 / 2 ^ 53) = x + x / 2 ^ 53 := by ring
    linarith [h.2]

/-- The value `float64(math.MaxInt64)` is `2 ^ 63`. -/
theorem float64_maxInt64 : float64 ((2 : ℚ) ^ 63 - 1) = 2 ^ 63 := by
  have hlog : Int.log 2 |((2 : ℚ) ^ 63 - 1)| = 62 := by
    apply log_two_eq_of_bounds <;> norm_num
  have hne : ((2 : ℚ) ^ 63 - 1) ≠ 0 := by norm_num
  unfold float64
  rw [if_neg hne, hlog]
  norm_num [roundEven]

/-- The nanosecond as a `float64` of seconds. -/
theorem float64_nanosecond :
    float64 (1 / 1000000000) = 4835703278458517 / 2 ^ 82 := by
  have hlog : Int.log 2 |((1 : ℚ) / 1000000000)| = -30 := by
    rw [abs_of_pos (by norm_num)]
    apply log_two_eq_of_bounds <;> norm_num
  have hne : ((1 : ℚ) / 1000000000) ≠ 0 := by norm_num
  unfold float64
  rw [if_neg hne, hlog]
  norm_num [roundEven]

/-- The product `float64(1e-9) * 1e9` rounds to exactly 1. -/
theorem float64_nanosecond_mul :
    float64 (4835703278458517 / 2 ^ 82 * 1000000000) = 1 := by
  have hlog : Int.log 2 |((4835703278458517 : ℚ) / 2 ^ 82 * 1000000000)| = 0 := by
    rw [abs_of_pos (by norm_num)]
    apply log_two_eq_of_bounds <;> norm_num
  have hne : ((4835703278458517 : ℚ) / 2 ^ 82 * 1000000000) ≠ 0 := by norm_num
  unfold float64
  rw [if_neg hne, hlog]
  norm_num [roundEven]

/-- Every integer of absolute value at most `2 ^ 53` is a `float64`. -/
theorem float64_intCast (z : ℤ) (h : |z| ≤ 2 ^ 53) : float64 (z : ℚ) = (z : ℚ) := by
  by_cases h0 : z = 0
  · simp [h0, float64]
  have hz1 : (1 : ℚ) ≤ |(z : ℚ)| := by
    have : (1 : ℤ) ≤ |z| := Int.one_le_abs h0
    exact_mod_cast this
  have hzq : |(z : ℚ)| ≤ 2 ^ 53 := by exact_mod_cast h
  have hpos : (0 : ℚ) < |(z : ℚ)| := lt_of_lt_of_le one_pos hz1
  have hlo : 0 ≤ Int.log 2 |(z : ℚ)| := by
    rw [← Int.zpow_le_iff_le_log (by norm_num) hpos]
    simpa using hz1
  have hhi : Int.log 2 |(z : ℚ)| < 54 := by
    rw [← Int.lt_zpow_iff_log_lt (by norm_num) hpos]
    have : (2 : ℚ) ^ (53 : ℕ) < ((2 : ℕ) : ℚ) ^ (54 : ℤ) := by norm_num
    exact lt_of_le_of_lt hzq this
  have hle := Int.zpow_log_le_self (b := 2) (r := |(z : ℚ)|) (by norm_num) hpos
  by_cases h53 : Int.log 2 |(z : ℚ)| = 53
  · -- the one integer of that binade is `± 2 ^ 53`
    rw [h53] at hle
    have hle' : (2 : ℚ) ^ (53 : ℕ) ≤ |(z : ℚ)| := by
      have h' : ((2 : ℕ) : ℚ) ^ (53 : ℤ) = (2 : ℚ) ^ (53 : ℕ) := by norm_num
      rw [← h']
      exact hle
    have habs : |(z : ℚ)| = 2 ^ 53 := le_antisymm hzq hle'
    rcases abs_cases (z : ℚ) with ⟨hc, -⟩ | ⟨hc, -⟩
    · apply float64_of_multiple _ (2 ^ 52)
      rw [h53, ← hc, habs]
      norm_num
    · apply float64_of_multiple _ (-2 ^ 52)
      have hzv : (z : ℚ) = -(2 ^ 53) := by linarith
      rw [h53, hzv]
      norm_num
  · obtain ⟨k, hk⟩ : ∃ k : ℕ, Int.log 2 |(z : ℚ)| - 52 = -(k : ℤ) :=
      ⟨(52 - Int.log 2 |(z : ℚ)|).toNat, by omega⟩
    apply float64_of_multiple _ (z * 2 ^ k)
    rw [hk, zpow_neg, zpow_natCast]
    push_cast
    field_simp

theorem float64_one : float64 1 = 1 := by
  have h := float64_intCast 1 (by norm_num)
  simpa using h

theorem float64_eq_zero {x : ℚ} (h : float64 x = 0) : x = 0 := by
  have he := float64_error x
  rw [h, zero_sub, abs_neg] at he
  have hnn : 0 ≤ |x| := abs_nonneg x
  have h2 : |x| / 2 ^ 53 ≤ |x| / 2 := by
    apply div_le_div_of_nonneg_left hnn (by norm_num) (by norm_num)
  have h3 : |x| ≤ 0 := by linarith
  exact abs_eq_zero.mp (le_antisymm h3 hnn)

/-- The integer `2 ^ 53 + 1` has no `float64` of its own: it rounds to `2 ^ 53`. -/
theorem float64_9007199254740993 :
    float64 (9007199254740993 : ℚ) = 9007199254740992 := by
  have hlog : Int.log 2 |(9007199254740993 : ℚ)| = 53 := by
    apply log_two_eq_of_bounds <;> norm_num
  have hne : (9007199254740993 : ℚ) ≠ 0 := by norm_num
  unfold float64
  rw [if_neg hne, hlog]
  norm_num [roundEven]

theorem float64_neg_one : float64 (-1) = -1 := by
  have h := float64_intCast (-1) (by norm_num)
  simpa using h

theorem float64_second : float64 ((rate.Second : Int) : ℚ) = 1000000000 := by
  have h := float64_intCast 1000000000 (by norm_num)
  simpa [rate.Second] using h

/-! ### Token bucket lemmas -/

namespace rate

theorem Time.Sub_self (t : Time) : Time.Sub t t = 0 := by
  simp [Time.Sub, InfDuration]

theorem Time.Sub_nonneg {t u : Time} (h : u ≤ t) : 0 ≤ Time.Sub t u := by
  have h' : (0 : Int) ≤ t - u := sub_nonneg.mpr h
  unfold Time.Sub InfDuration
  split_ifs with h1 h2
  · norm_num
  · norm_num at h2
    linarith
  · exact h'

theorem Duration.Seconds_zero : Duration.Seconds 0 = 0 := by
  simp [Duration.Seconds, float64_zero]

theorem Duration.Seconds_nonneg {d : Duration} (h : 0 ≤ d) : 0 ≤ Duration.Seconds d := by
  have h1 : (0 : ℚ) ≤ ((Int.tdiv d Second : Int) : ℚ) := by
    have : 0 ≤ Int.tdiv d Second := Int.tdiv_nonneg h (by decide)
    exact_mod_cast this
  have h2 : (0 : ℚ) ≤ ((Int.tmod d Second : Int) : ℚ) := by
    have : 0 ≤ Int.tmod d Second := Int.tmod_nonneg _ h
    exact_mod_cast this
  unfold Duration.Seconds
  apply float64_nonneg
  apply add_nonneg (float64_nonneg h1)
  apply float64_nonneg
  apply div_nonneg (float64_nonneg h2)
  norm_num

theorem tokensFromDuration_zero (limit : Limit) : tokensFromDuration limit 0 = 0 := by
  simp [tokensFromDuration, Duration.Seconds_zero, float64_zero]

theorem tokensFromDuration_nonneg (limit : Limit) {d : Duration} (h : 0 ≤ d) :
    0 ≤ tokensFromDuration limit d := by
  unfold tokensFromDuration
  split_ifs with hl
  · exact le_refl _
  · have hl' : (0 : ℚ) ≤ limit := le_of_lt (not_le.mp hl)
    exact float64_nonneg (mul_nonneg (Duration.Seconds_nonneg h) hl')

theorem Limiter.advance_fst (lim : Limiter) (t : Time) : (lim.advance t).1 = t := rfl

/-- With no time elapsed since the last update, `advance` reports the stored
token count. -/
theorem Limiter.advance_snd_of_last (lim : Limiter) (t : Time)
    (hlast : lim.last = t) (hrep : float64 lim.tokens = lim.tokens)
    (hle : lim.tokens ≤ float64 lim.burst) :
    (lim.advance t).2 = lim.tokens := by
  simp [Limiter.advance, hlast, Time.Sub_self, tokensFromDuration_zero, hrep, not_lt.mpr hle]

/-- With no time elapsed since the last update, `advance` reports the stored
token count cut to the capacity. -/
theorem Limiter.advance_snd_of_last_min (lim : Limiter) (t : Time)
    (hlast : lim.last = t) (hrep : float64 lim.tokens = lim.tokens) :
    (lim.advance t).2 = min lim.tokens (float64 lim.burst) := by
  simp only [Limiter.advance, hlast, lt_irrefl, if_false, Time.Sub_self,
    tokensFromDuration_zero, add_zero, hrep]
  rcases lt_or_le (float64 lim.burst) lim.tokens with h | h
  · rw [if_pos h, min_eq_right (le_of_lt h)]
  · rw [if_neg (not_lt.mpr h), min_eq_left h]

/-- A full bucket stays full whatever time elapsed. -/
theorem Limiter.advance_snd_of_full (lim : Limiter) (t : Time)
    (hpos : 0 < lim.burst) (h53 : lim.burst ≤ 2 ^ 53)
    (hfull : lim.tokens = float64 lim.burst) :
    (lim.advance t).2 = float64 lim.burst := by
  have hexact : float64 (lim.burst : ℚ) = (lim.burst : ℚ) :=
    float64_intCast _ (by rw [abs_of_pos hpos]; exact h53)
  have hsub : 0 ≤ Time.Sub t (if t < lim.last then t else lim.last) := by
    apply Time.Sub_nonneg
    split_ifs with h
    · exact le_refl _
    · exact not_lt.mp h
  have hd := tokensFromDuration_nonneg lim.limit hsub
  simp only [Limiter.advance]
  generalize tokensFromDuration lim.limit (Time.Sub t (if t < lim.last then t else lim.last)) = d
    at hd
  have hge : (lim.burst : ℚ) ≤ float64 (lim.tokens + d) := by
    apply float64_ge_int _ hpos h53
    rw [hfull, hexact]
    linarith
  split_ifs with h
  · rfl
  · rw [hexact] at h ⊢
    exact le_antisymm (not_lt.mp h) hge

theorem Limiter.advance_snd_le_burst (lim : Limiter) (t : Time) :
    (lim.advance t).2 ≤ float64 lim.burst := by
  simp only [Limiter.advance]
  generalize float64 (lim.tokens +
    tokensFromDuration lim.limit (Time.Sub t (if t < lim.last then t else lim.last))) = x
  split_ifs with h
  · exact le_refl _
  · exact not_lt.mp h

/-- The count `advance` reports is a `float64`. -/
theorem Limiter.advance_snd_rounded (lim : Limiter) (t : Time) :
    float64 (lim.advance t).2 = (lim.advance t).2 := by
  simp only [Limiter.advance]
  generalize tokensFromDuration lim.limit
    (Time.Sub t (if t < lim.last then t else lim.last)) = d
  split_ifs with h
  · exact float64_idem _
  · exact float64_idem _

theorem Limiter.advance_snd_eq_min (l : Limiter) (t : Time) :
    (l.advance t).2 =
      min (float64 l.burst)
        (float64 (l.tokens + tokensFromDuration l.limit (Time.Sub t (min t l.last)))) := by
  have hmin : (if t < l.last then t else l.last) = min t l.last := by
    rcases lt_or_le t l.last with h | h
    · rw [if_pos h, min_eq_left (le_of_lt h)]
    · rw [if_neg (not_lt.mpr h), min_eq_right h]
  simp only [Limiter.advance, hmin]
  generalize float64 (l.tokens + tokensFromDuration l.limit (Time.Sub t (min t l.last))) = x
  rcases lt_or_le (float64 l.burst) x with h | h
  · rw [if_pos h, min_eq_left (le_of_lt h)]
  · rw [if_neg (not_lt.mpr h), min_eq_right h]

/-- The wait for one missing token at `r` tokens per second: the rounded
product `float64(1 / r) * 1e9`, cut to a whole number of nanoseconds. -/
theorem durationFromTokens_one (r : Limit) (hr : 0 < r)
    (hcap : float64 (float64 (1 / r) * 1000000000) ≤ 2 ^ 63) :
    durationFromTokens r 1 = ⌊float64 (float64 (1 / r) * 1000000000)⌋ := by
  have hnn : (0 : ℚ) ≤ float64 (float64 (1 / r) * 1000000000) := by
    apply float64_nonneg
    apply mul_nonneg (float64_nonneg (by positivity))
    norm_num
  unfold durationFromTokens
  simp only [not_le.mpr hr, if_false, float64_second, float64_maxInt64]
  rw [if_neg (not_lt.mpr hcap)]
  have hnn' : (0 : ℚ) ≤ float64 (float64 (1 / r) * 1000000000) := hnn
  simp only [one_div] at hnn' ⊢
  simp only [truncate, hnn', if_true]

/-- Rounded twice, the wait `1e9 / r` stays within the factors `(1 ± 2^-53)^2`. -/
theorem wait_bounds (r : Limit) (hr : 0 < r) :
    1000000000 / r * ((1 - 1 / 2 ^ 53) * (1 - 1 / 2 ^ 53)) ≤
        float64 (float64 (1 / r) * 1000000000) ∧
      float64 (float64 (1 / r) * 1000000000) ≤
        1000000000 / r * ((1 + 1 / 2 ^ 53) * (1 + 1 / 2 ^ 53)) := by
  have h1 : (0 : ℚ) < 1 / r := by positivity
  have ha := float64_bounds h1
  have hfa : 0 < float64 (1 / r) := float64_pos h1
  have h2 : (0 : ℚ) < float64 (1 / r) * 1000000000 := by positivity
  have hb := float64_bounds h2
  have hc1 : (0 : ℚ) ≤ 1 - 1 / 2 ^ 53 := by norm_num
  have hc2 : (0 : ℚ) ≤ 1 + 1 / 2 ^ 53 := by norm_num
  constructor
  · calc 1000000000 / r * ((1 - 1 / 2 ^ 53) * (1 - 1 / 2 ^ 53))
        = (1 / r * (1 - 1 / 2 ^ 53)) * 1000000000 * (1 - 1 / 2 ^ 53) := by ring
      _ ≤ float64 (1 / r) * 1000000000 * (1 - 1 / 2 ^ 53) := by
          apply mul_le_mul_of_nonneg_right _ hc1
          apply mul_le_mul_of_nonneg_right ha.1 (by norm_num)
      _ ≤ float64 (float64 (1 / r) * 1000000000) := hb.1
  · calc float64 (float64 (1 / r) * 1000000000)
        ≤ float64 (1 / r) * 1000000000 * (1 + 1 / 2 ^ 53) := hb.2
      _ ≤ (1 / r * (1 + 1 / 2 ^ 53)) * 1000000000 * (1 + 1 / 2 ^ 53) := by
          apply mul_le_mul_of_nonneg_right _ hc2
          apply mul_le_mul_of_nonneg_right ha.2 (by norm_num)
      _ = 1000000000 / r * ((1 + 1 / 2 ^ 53) * (1 + 1 / 2 ^ 53)) := by ring

theorem durationFromTokens_one_pos (r : Limit) (hlo : 1 / 120 ≤ r)
    (hhi : r ≤ 1000000000 - 1 / 120 ∨ r = 1000000000) :
    1 ≤ durationFromTokens r 1 := by
  have hr : 0 < r := lt_of_lt_of_le (by norm_num) hlo
  rcases hhi with hhi | heq
  · obtain ⟨hlow, hupp⟩ := wait_bounds r hr
    have hcap : float64 (float64 (1 / r) * 1000000000) ≤ 2 ^ 63 := by
      have h1 : (1000000000 : ℚ) / r ≤ 120000000000 := by
        rw [div_le_iff₀ hr]
        linarith
      have h2 : (1000000000 : ℚ) / r * ((1 + 1 / 2 ^ 53) * (1 + 1 / 2 ^ 53)) ≤
          120000000000 * ((1 + 1 / 2 ^ 53) * (1 + 1 / 2 ^ 53)) :=
        mul_le_mul_of_nonneg_right h1 (by norm_num)
      have h3 : (120000000000 : ℚ) * ((1 + 1 / 2 ^ 53) * (1 + 1 / 2 ^ 53)) ≤ 2 ^ 63 := by
        norm_num
      linarith
    rw [durationFromTokens_one r hr hcap, Int.le_floor]
    have h1 : (1 : ℚ) ≤ 1000000000 / r * ((1 - 1 / 2 ^ 53) * (1 - 1 / 2 ^ 53)) := by
      rw [div_mul_eq_mul_div, le_div_iff₀ hr]
      have : (1000000000 : ℚ) - 1 / 120 ≤
          1000000000 * ((1 - 1 / 2 ^ 53) * (1 - 1 / 2 ^ 53)) := by norm_num
      linarith
    push_cast
    linarith
  · have hval : float64 (float64 (1 / r) * 1000000000) = 1 := by
      rw [heq, float64_nanosecond, float64_nanosecond_mul]
    have hcap : float64 (float64 (1 / r) * 1000000000) ≤ 2 ^ 63 := by
      rw [hval]
      norm_num
    rw [durationFromTokens_one r hr hcap, hval]
    simp

theorem durationFromTokens_one_zero (r : Limit) (hge : 2000000000 ≤ r) :
    durationFromTokens r 1 = 0 := by
  have hr : 0 < r := lt_of_lt_of_le (by norm_num) hge
  obtain ⟨hlow, hupp⟩ := wait_bounds r hr
  have h1 : (1000000000 : ℚ) / r ≤ 1 / 2 := by
    rw [div_le_iff₀ hr]
    linarith
  have h2 : (1000000000 : ℚ) / r * ((1 + 1 / 2 ^ 53) * (1 + 1 / 2 ^ 53)) ≤
      1 / 2 * ((1 + 1 / 2 ^ 53) * (1 + 1 / 2 ^ 53)) :=
    mul_le_mul_of_nonneg_right h1 (by norm_num)
  have h3 : (1 : ℚ) / 2 * ((1 + 1 / 2 ^ 53) * (1 + 1 / 2 ^ 53)) < 1 := by norm_num
  have hlt : float64 (float64 (1 / r) * 1000000000) < 1 := by linarith
  have hnn : (0 : ℚ) ≤ float64 (float64 (1 / r) * 1000000000) := by
    apply float64_nonneg
    apply mul_nonneg (float64_nonneg (by positivity))
    norm_num
  have hcap : float64 (float64 (1 / r) * 1000000000) ≤ 2 ^ 63 := by
    have : (1 : ℚ) ≤ 2 ^ 63 := by norm_num
    linarith
  rw [durationFromTokens_one r hr hcap, Int.floor_eq_zero_iff]
  exact ⟨hnn, hlt⟩

/-- A check that finds at least one token admits and takes exactly one. -/
theorem Limiter.check_of_token (lim : Limiter) (now : Time) (j : ℚ)
    (hpos : 0 < lim.limit) (hInf : lim.limit ≠ Inf) (hburst : 1 ≤ lim.burst)
    (hadv : (lim.advance now).2 = j) (hj : 1 ≤ j) (hrep : float64 (j - 1) = j - 1) :
    lim.Allow now = ({ lim with last := now, tokens := j - 1, lastEvent := now }, true) := by
  have hpair : lim.advance now = (now, j) := Prod.ext rfl hadv
  have h0 : lim.limit ≠ 0 := ne_of_gt hpos
  have hnot : ¬ (j - 1 < 0) := by linarith
  simp [Limiter.Allow, Limiter.reserveN, hInf, h0, hpair, hburst, hnot, float64_one, hrep]

/-- A check on an empty bucket, with no time elapsed, is refused when the rate
is at most `1e9` tokens per second: the wait is at least one nanosecond. -/
theorem Limiter.check_of_empty (lim : Limiter) (now : Time)
    (hlo : 1 / 120 ≤ lim.limit)
    (hhi : lim.limit ≤ 1000000000 - 1 / 120 ∨ lim.limit = 1000000000)
    (hInf : lim.limit ≠ Inf) (hadv : (lim.advance now).2 = 0) :
    lim.Allow now = (lim, false) := by
  have hpair : lim.advance now = (now, 0) := Prod.ext rfl hadv
  have hpos : 0 < lim.limit := lt_of_lt_of_le (by norm_num) hlo
  have h0 : lim.limit ≠ 0 := ne_of_gt hpos
  have hw := durationFromTokens_one_pos lim.limit hlo hhi
  have hw' : ¬ durationFromTokens lim.limit 1 ≤ 0 := not_le.mpr (lt_of_lt_of_le one_pos hw)
  simp [Limiter.Allow, Limiter.reserveN, hInf, h0, hpair, hw', float64_one, float64_neg_one]

/-- A check on an empty bucket, with no time elapsed, is admitted when the rate
is at least `2e9` tokens per second: the wait is below one nanosecond and is
cut to zero. -/
theorem Limiter.check_of_empty_fast (lim : Limiter) (now : Time)
    (hge : 2000000000 ≤ lim.limit) (hInf : lim.limit ≠ Inf) (hburst : 1 ≤ lim.burst)
    (hadv : (lim.advance now).2 = 0) :
    lim.Allow now = ({ lim with last := now, tokens := -1, lastEvent := now }, true) := by
  have hpair : lim.advance now = (now, 0) := Prod.ext rfl hadv
  have hpos : 0 < lim.limit := lt_of_lt_of_le (by norm_num) hge
  have h0 : lim.limit ≠ 0 := ne_of_gt hpos
  have hw := durationFromTokens_one_zero lim.limit hge
  simp [Limiter.Allow, Limiter.reserveN, hInf, h0, hpair, hw, hburst, float64_one,
    float64_neg_one]

/-- The count after `SetLimitAt` and `SetBurstAt`: the old count refilled twice
under the old capacity, every step rounded. -/
theorem Limiter.SetLimitAt_SetBurstAt_tokens (l : Limiter) (tLimit tBurst : Time) (r : Limit)
    (b : Int) :
    ((l.SetLimitAt tLimit r).SetBurstAt tBurst b).tokens =
      min (float64 l.burst)
        (float64
          (min (float64 l.burst)
              (float64
                (l.tokens + tokensFromDuration l.limit (Time.Sub tLimit (min tLimit l.last)))) +
            tokensFromDuration r (Time.Sub tBurst (min tBurst tLimit)))) := by
  have h1 := Limiter.advance_snd_eq_min l tLimit
  have h2 := Limiter.advance_snd_eq_min (l.SetLimitAt tLimit r) tBurst
  have h3 : ((l.SetLimitAt tLimit r).SetBurstAt tBurst b).tokens =
      ((l.SetLimitAt tLimit r).advance tBurst).2 := rfl
  have h4 : (l.SetLimitAt tLimit r).tokens = (l.advance tLimit).2 := rfl
  have h5 : (l.SetLimitAt tLimit r).burst = l.burst := rfl
  have h6 : (l.SetLimitAt tLimit r).limit = r := rfl
  have h7 : (l.SetLimitAt tLimit r).last = tLimit := rfl
  rw [h3, h2, h4, h5, h6, h7, h1]

/-- When both clock reads give the same instant, the count after `SetLimitAt` and
`SetBurstAt` is the count the limiter reported at that instant. -/
theorem Limiter.SetLimitAt_SetBurstAt_tokens_same (l : Limiter) (t : Time) (r : Limit)
    (b : Int) : ((l.SetLimitAt t r).SetBurstAt t b).tokens = l.TokensAt t := by
  have h3 : ((l.SetLimitAt t r).SetBurstAt t b).tokens =
      ((l.SetLimitAt t r).advance t).2 := rfl
  rw [h3]
  exact Limiter.advance_snd_of_last (l.SetLimitAt t r) t rfl
    (Limiter.advance_snd_rounded l t) (Limiter.advance_snd_le_burst l t)

end rate

/-! ### The rate `rate.Limit(limitRPM) / 60.0` -/

namespace ratelimit

open rate

theorem perSecond_pos {N : Int} (hN : 0 < N) : 0 < perSecond N := by
  have hq : (0 : ℚ) < (N : ℚ) := by exact_mod_cast hN
  exact float64_pos (div_pos (float64_pos hq) (by norm_num))

theorem perSecond_eq_zero {N : Int} (h : perSecond N = 0) : N = 0 := by
  have h1 : float64 (N : ℚ) / 60 = 0 := float64_eq_zero h
  have h2 : float64 (N : ℚ) = 0 := by
    rcases div_eq_zero_iff.mp h1 with h | h
    · exact h
    · norm_num at h
  exact_mod_cast float64_eq_zero h2

/-- A limit of `60 * k` requests per minute is the rate `k`, exactly. -/
theorem perSecond_of_multiple (k : Int) (h : |60 * k| ≤ 2 ^ 53) :
    perSecond (60 * k) = (k : ℚ) := by
  have hk : |k| ≤ 2 ^ 53 := by
    have : |k| ≤ |60 * k| := by
      rw [abs_mul]
      have h60 : |(60 : Int)| = 60 := by norm_num
      rw [h60]
      have := abs_nonneg k
      linarith
    linarith
  unfold perSecond
  rw [float64_intCast _ h]
  have : ((60 * k : Int) : ℚ) / 60 = (k : ℚ) := by
    push_cast
    field_simp
  rw [this, float64_intCast _ hk]

/-- Up to `6e10` requests per minute the rate is at most `1e9` tokens per
second, and `1e9` only at `6e10`. -/
theorem perSecond_bounds (N : Int) (hN : 0 < N) (hle : N ≤ 60000000000) :
    1 / 120 ≤ perSecond N ∧
      (perSecond N ≤ 1000000000 - 1 / 120 ∨ perSecond N = 1000000000) := by
  have hN1 : (1 : ℚ) ≤ (N : ℚ) := by exact_mod_cast hN
  have hexact : float64 (N : ℚ) = (N : ℚ) := by
    apply float64_intCast
    rw [abs_of_pos hN]
    linarith
  have hx : (0 : ℚ) < (N : ℚ) / 60 := by positivity
  have herr := float64_error ((N : ℚ) / 60)
  rw [abs_of_pos hx, abs_le] at herr
  have hsmall : (N : ℚ) / 60 / 2 ^ 53 ≤ (N : ℚ) / 60 / 2 := by
    apply div_le_div_of_nonneg_left (le_of_lt hx) (by norm_num) (by norm_num)
  constructor
  · unfold perSecond
    rw [hexact]
    linarith [herr.1]
  · rcases eq_or_lt_of_le hle with heq | hlt
    · right
      have h := perSecond_of_multiple 1000000000 (by norm_num)
      rw [heq]
      norm_num at h ⊢
      rw [h]
    · left
      have hlt' : (N : ℚ) ≤ 59999999999 := by
        have : N ≤ 59999999999 := by omega
        exact_mod_cast this
      have hbound : (N : ℚ) / 60 / 2 ^ 53 ≤ 1 / 120 := by
        rw [div_div, div_le_iff₀ (by norm_num)]
        norm_num
        linarith
      unfold perSecond
      rw [hexact]
      linarith [herr.2]

theorem perSecond_ne_Inf_of_le (N : Int) (hN : 0 < N) (hle : N ≤ 60000000000) :
    perSecond N ≠ rate.Inf := by
  have h1 : perSecond N ≤ 1000000000 := by
    rcases (perSecond_bounds N hN hle).2 with h | h
    · linarith
    · exact le_of_eq h
  have h2 : (1000000000 : ℚ) < rate.Inf := by
    unfold rate.Inf
    norm_num
  exact ne_of_lt (lt_of_le_of_lt h1 h2)

/-- Below `2 ^ 52` in absolute value, distinct limits have distinct rates. -/
theorem perSecond_injective {a b : Int} (ha : |a| < 2 ^ 52) (hb : |b| < 2 ^ 52)
    (h : perSecond a = perSecond b) : a = b := by
  have hea : float64 (a : ℚ) = (a : ℚ) := float64_intCast a (by linarith)
  have heb : float64 (b : ℚ) = (b : ℚ) := float64_intCast b (by linarith)
  have haq : |(a : ℚ)| < 2 ^ 52 := by exact_mod_cast ha
  have hbq : |(b : ℚ)| < 2 ^ 52 := by exact_mod_cast hb
  have erra := float64_error ((a : ℚ) / 60)
  have errb := float64_error ((b : ℚ) / 60)
  unfold perSecond at h
  rw [hea, heb] at h
  rw [h] at erra
  have ha60 : |(a : ℚ) / 60| / 2 ^ 53 < 1 / 120 := by
    rw [abs_div, div_div, div_lt_iff₀ (by norm_num)]
    norm_num
    linarith
  have hb60 : |(b : ℚ) / 60| / 2 ^ 53 < 1 / 120 := by
    rw [abs_div, div_div, div_lt_iff₀ (by norm_num)]
    norm_num
    linarith
  rw [abs_le] at erra errb
  have hdiff : |(a : ℚ) - (b : ℚ)| < 1 := by
    rw [abs_lt]
    constructor <;> linarith [erra.1, erra.2, errb.1, errb.2]
  have hint : |a - b| < 1 := by exact_mod_cast hdiff
  have : a - b = 0 := Int.abs_lt_one_iff.mp hint
  omega

/-- The limits `2 ^ 53` and `2 ^ 53 + 1` have the same rate. -/
theorem perSecond_9007199254740993 :
    perSecond 9007199254740993 = perSecond 9007199254740992 := by
  have h1 : float64 ((9007199254740993 : Int) : ℚ) = 9007199254740992 := by
    have := float64_9007199254740993
    simpa using this
  have h2 : float64 ((9007199254740992 : Int) : ℚ) = 9007199254740992 := by
    have := float64_intCast 9007199254740992 (by norm_num)
    simpa using this
  unfold perSecond
  rw [h1, h2]

/-! ### Consecutive admission checks for one key -/

theorem GetLimiter_of_absent (m : Manager) (key : String) (N : Int) (tLimit tBurst : Time)
    (habs : m.limiters.get key = none) :
    m.GetLimiter key N tLimit tBurst =
      (m.heap.length,
        { limiters := m.limiters.set key m.heap.length,
          heap := m.heap ++ [NewLimiter (perSecond N) N] }) := by
  simp [Manager.GetLimiter, habs]

theorem GetLimiter_of_same_rate (m : Manager) (key : String) (N : Int) (tLimit tBurst : Time)
    (p : Nat) (l : Limiter) (hkey : m.limiters.get key = some p) (hl : m.heap[p]? = some l)
    (hrate : l.limit = perSecond N) :
    m.GetLimiter key N tLimit tBurst = (p, m) := by
  simp [Manager.GetLimiter, hkey, hl, hrate]

theorem GetLimiter_of_other_rate (m : Manager) (key : String) (N : Int) (tLimit tBurst : Time)
    (p : Nat) (l : Limiter) (hkey : m.limiters.get key = some p) (hl : m.heap[p]? = some l)
    (hrate : l.limit ≠ perSecond N) :
    m.GetLimiter key N tLimit tBurst =
      (p, ⟨m.limiters, m.heap.set p ((l.SetLimitAt tLimit (perSecond N)).SetBurstAt tBurst N)⟩) := by
  simp [Manager.GetLimiter, hkey, hl, hrate]

theorem HoldsBucket_of_absent (m : Manager) (key : String) (N : Int) (now : Time)
    (hN : 0 < N) (hN53 : N ≤ 2 ^ 53) (habs : m.limiters.get key = none) :
    HoldsBucket (m.GetLimiter key N now now).2 key m.heap.length N now (N : ℚ) := by
  have hexact : float64 (N : ℚ) = (N : ℚ) :=
    float64_intCast _ (by rw [abs_of_pos hN]; exact hN53)
  rw [GetLimiter_of_absent m key N now now habs]
  refine ⟨GoMap.get_set_self _ _ _, NewLimiter (perSecond N) N, ?_, rfl, rfl, ?_⟩
  · simp
  · rw [Limiter.advance_snd_of_full _ _ hN hN53 rfl]
    exact hexact

theorem GetLimiter_of_bucket (m : Manager) (key : String) (p : Nat) (N : Int) (now : Time)
    (j : ℚ) (tLimit tBurst : Time) (h : HoldsBucket m key p N now j) :
    m.GetLimiter key N tLimit tBurst = (p, m) := by
  obtain ⟨hkey, l, hl, hrate, -, -⟩ := h
  exact GetLimiter_of_same_rate m key N tLimit tBurst p l hkey hl hrate

theorem lt_length_of_getElem? {α : Type} {xs : List α} {p : Nat} {x : α}
    (h : xs[p]? = some x) : p < xs.length := by
  rcases Nat.lt_or_ge p xs.length with hlt | hge
  · exact hlt
  · rw [List.getElem?_eq_none hge] at h
    cases h

/-- One `Allow` whose `GetLimiter` step ends in a bucket with `j + 1` tokens:
admitted, and the bucket is left with `j` tokens. -/
theorem Allow_of_token (m m1 : Manager) (key : String) (p : Nat) (N : Int) (now : Time)
    (j : Nat) (hN : 0 < N) (hN53 : N ≤ 2 ^ 53) (hInf : perSecond N ≠ rate.Inf)
    (hget : m.GetLimiter key N now now = (p, m1))
    (hb : HoldsBucket m1 key p N now ((j : ℚ) + 1)) :
    (m.Allow key N now now now).1 = true ∧
      HoldsBucket (m.Allow key N now now now).2 key p N now (j : ℚ) := by
  obtain ⟨hkey, l, hl, hrate, hburst, hadv⟩ := hb
  have hexact : float64 (N : ℚ) = (N : ℚ) :=
    float64_intCast _ (by rw [abs_of_pos hN]; exact hN53)
  have hcap := Limiter.advance_snd_le_burst l now
  rw [hadv, hburst, hexact] at hcap
  have hN53q : (N : ℚ) ≤ 2 ^ 53 := by exact_mod_cast hN53
  have hjrep : float64 (j : ℚ) = (j : ℚ) := by
    have h := float64_intCast (j : Int) (by
      rw [abs_of_nonneg (Int.natCast_nonneg j)]
      have : ((j : Int) : ℚ) ≤ 2 ^ 53 := by push_cast; linarith
      exact_mod_cast this)
    simpa using h
  have hplt := lt_length_of_getElem? hl
  have hallow := Limiter.check_of_token l now ((j : ℚ) + 1) (hrate ▸ perSecond_pos hN)
    (hrate ▸ hInf) (hburst ▸ hN) hadv (by linarith [Nat.cast_nonneg (α := ℚ) j])
    (by rw [add_sub_cancel_right]; exact hjrep)
  have hnot : ¬ N ≤ 0 := not_le.mpr hN
  simp only [Manager.Allow, hnot, if_false, hget, hl, hallow]
  refine ⟨trivial, hkey, _, List.getElem?_set_self hplt, hrate, hburst, ?_⟩
  rw [Limiter.advance_snd_of_last _ now rfl]
  · simp
  · simp only [add_sub_cancel_right]
    exact hjrep
  · simp only [add_sub_cancel_right, hburst, hexact]
    linarith

/-- One `Allow` on an empty bucket at a limit of at most `6e10`: refused. -/
theorem Allow_of_empty (m : Manager) (key : String) (p : Nat) (N : Int) (now : Time)
    (hN : 0 < N) (hle : N ≤ 60000000000) (hb : HoldsBucket m key p N now 0) :
    (m.Allow key N now now now).1 = false := by
  have hget := GetLimiter_of_bucket m key p N now 0 now now hb
  obtain ⟨-, l, hl, hrate, -, hadv⟩ := hb
  have hbounds := perSecond_bounds N hN hle
  have hInf := perSecond_ne_Inf_of_le N hN hle
  have hallow := Limiter.check_of_empty l now (hrate ▸ hbounds.1) (hrate ▸ hbounds.2)
    (hrate ▸ hInf) hadv
  have hnot : ¬ N ≤ 0 := not_le.mpr hN
  simp only [Manager.Allow, hnot, if_false, hget, hl, hallow]

/-- One `Allow` on an empty bucket at a rate of at least `2e9`: admitted. -/
theorem Allow_of_empty_fast (m : Manager) (key : String) (p : Nat) (N : Int) (now : Time)
    (hN : 0 < N) (hge : 2000000000 ≤ perSecond N) (hInf : perSecond N ≠ rate.Inf)
    (hb : HoldsBucket m key p N now 0) :
    (m.Allow key N now now now).1 = true := by
  have hget := GetLimiter_of_bucket m key p N now 0 now now hb
  obtain ⟨-, l, hl, hrate, hburst, hadv⟩ := hb
  have hallow := Limiter.check_of_empty_fast l now (hrate ▸ hge) (hrate ▸ hInf)
    (hburst ▸ hN) hadv
  have hnot : ¬ N ≤ 0 := not_le.mpr hN
  simp only [Manager.Allow, hnot, if_false, hget, hl, hallow]

theorem allowRepeated_succ (key : String) (N : Int) (now : Time) (count : Nat) (m : Manager) :
    allowRepeated key N now (count + 1) m =
      ((m.Allow key N now now now).1 ::
          (allowRepeated key N now count (m.Allow key N now now now).2).1,
        (allowRepeated key N now count (m.Allow key N now now now).2).2) := rfl

/-- From a bucket holding `j` tokens, `j` checks are admitted and leave it empty. -/
theorem allowRepeated_drain (key : String) (p : Nat) (N : Int) (now : Time)
    (hN : 0 < N) (hN53 : N ≤ 2 ^ 53) (hInf : perSecond N ≠ rate.Inf) :
    ∀ (j : Nat) (m : Manager), HoldsBucket m key p N now (j : ℚ) →
      (allowRepeated key N now j m).1 = List.replicate j true ∧
        HoldsBucket (allowRepeated key N now j m).2 key p N now 0 := by
  intro j
  induction j with
  | zero =>
    intro m hb
    exact ⟨rfl, by simpa using hb⟩
  | succ j ih =>
    intro m hb
    have hget := GetLimiter_of_bucket m key p N now _ now now hb
    have hb' : HoldsBucket m key p N now ((j : ℚ) + 1) := by
      simpa using hb
    obtain ⟨hok, hnext⟩ := Allow_of_token m m key p N now j hN hN53 hInf hget hb'
    obtain ⟨hoks, hlast⟩ := ih _ hnext
    rw [allowRepeated_succ]
    exact ⟨by simp [hok, hoks, List.replicate_succ], hlast⟩

theorem allowRepeated_add (key : String) (N : Int) (now : Time) (a b : Nat) :
    ∀ m : Manager,
      (allowRepeated key N now (a + b) m).1 =
        (allowRepeated key N now a m).1 ++
          (allowRepeated key N now b (allowRepeated key N now a m).2).1 := by
  induction a with
  | zero =>
    intro m
    simp [allowRepeated]
  | succ a ih =>
    intro m
    have h : a + 1 + b = (a + b) + 1 := by omega
    rw [h, allowRepeated_succ, allowRepeated_succ, ih]
    rfl

/-- The first `Allow` for a key the registry does not hold creates a full bucket
of `n + 1` tokens and takes one of them. -/
theorem Allow_of_absent (m : Manager) (key : String) (n : Nat) (now : Time)
    (habs : m.limiters.get key = none) (hexact : n + 1 ≤ 2 ^ 53)
    (hInf : perSecond (n + 1 : Nat) ≠ rate.Inf) :
    (m.Allow key (n + 1 : Nat) now now now).1 = true ∧
      HoldsBucket (m.Allow key (n + 1 : Nat) now now now).2 key m.heap.length
        (n + 1 : Nat) now (n : ℚ) := by
  have hN : (0 : Int) < ((n + 1 : Nat) : Int) := by exact_mod_cast Nat.succ_pos n
  have hN53 : ((n + 1 : Nat) : Int) ≤ 2 ^ 53 := by exact_mod_cast hexact
  have hcast : (((n + 1 : Nat) : Int) : ℚ) = (n : ℚ) + 1 := by push_cast; ring
  have hb := HoldsBucket_of_absent m key ((n + 1 : Nat) : Int) now hN hN53 habs
  rw [hcast] at hb
  have hget : m.GetLimiter key ((n + 1 : Nat) : Int) now now =
      (m.heap.length, (m.GetLimiter key ((n + 1 : Nat) : Int) now now).2) := by
    rw [GetLimiter_of_absent m key _ now now habs]
  exact Allow_of_token m _ key m.heap.length _ now n hN hN53 hInf hget hb

/-- At a rate of at least `2e9` tokens per second the check that follows the
`n` admitted ones is admitted as well. -/
theorem allowRepeated_fast (m : Manager) (key : String) (n : Nat) (now : Time)
    (habs : m.limiters.get key = none) (hpos : 0 < n) (hexact : n ≤ 2 ^ 53)
    (hge : 2000000000 ≤ perSecond (n : Int)) (hInf : perSecond (n : Int) ≠ rate.Inf) :
    (allowRepeated key n now (n + 1) m).1 = List.replicate (n + 1) true := by
  obtain ⟨k, rfl⟩ : ∃ k, n = k + 1 := ⟨n - 1, by omega⟩
  have hN : (0 : Int) < ((k + 1 : Nat) : Int) := by exact_mod_cast Nat.succ_pos k
  have hN53 : ((k + 1 : Nat) : Int) ≤ 2 ^ 53 := by exact_mod_cast hexact
  obtain ⟨hok, hb⟩ := Allow_of_absent m key k now habs hexact hInf
  obtain ⟨hoks, hb0⟩ := allowRepeated_drain key m.heap.length _ now hN hN53 hInf k _ hb
  have hlast := Allow_of_empty_fast _ key m.heap.length _ now hN hge hInf hb0
  rw [allowRepeated_succ, allowRepeated_add key _ now k 1, hok, hoks, allowRepeated_succ, hlast]
  simp [allowRepeated, List.replicate_succ (n := k + 1), ← List.replicate_succ']

theorem replicate_true_succ_ne (n : Nat) :
    List.replicate (n + 1) true ≠ List.replicate n true ++ [false] := by
  rw [List.replicate_succ']
  intro h
  have h' := List.append_cancel_left h
  simp at h'

end ratelimit

/-! ### Invariants of the reachable registries -/

namespace ratelimit

open rate

/-- The four shapes of a `GetLimiter` call. -/
theorem GetLimiter_cases (m : Manager) (key : String) (limitRPM : Int) (tLimit tBurst : Time) :
    (m.limiters.get key = none ∧
        m.GetLimiter key limitRPM tLimit tBurst =
          (m.heap.length,
            { limiters := m.limiters.set key m.heap.length,
              heap := m.heap ++ [NewLimiter (perSecond limitRPM) limitRPM] })) ∨
      (∃ p, m.limiters.get key = some p ∧ m.heap[p]? = none ∧
        m.GetLimiter key limitRPM tLimit tBurst = (p, m)) ∨
      (∃ p l, m.limiters.get key = some p ∧ m.heap[p]? = some l ∧
        l.limit = perSecond limitRPM ∧
        m.GetLimiter key limitRPM tLimit tBurst = (p, m)) ∨
      (∃ p l, m.limiters.get key = some p ∧ m.heap[p]? = some l ∧
        l.limit ≠ perSecond limitRPM ∧
        m.GetLimiter key limitRPM tLimit tBurst =
          (p, ⟨m.limiters, m.heap.set p
                ((l.SetLimitAt tLimit (perSecond limitRPM)).SetBurstAt tBurst limitRPM)⟩)) := by
  cases hkey : m.limiters.get key with
  | none =>
    left
    exact ⟨rfl, GetLimiter_of_absent m key limitRPM tLimit tBurst hkey⟩
  | some p =>
    right
    cases hl : m.heap[p]? with
    | none =>
      left
      exact ⟨p, rfl, hl, by simp [Manager.GetLimiter, hkey, hl]⟩
    | some l =>
      right
      by_cases hrate : l.limit = perSecond limitRPM
      · left
        exact ⟨p, l, rfl, hl, hrate,
          GetLimiter_of_same_rate m key limitRPM tLimit tBurst p l hkey hl hrate⟩
      · right
        exact ⟨p, l, rfl, hl, hrate, by simp [Manager.GetLimiter, hkey, hl, hrate]⟩

theorem WellFormed_GetLimiter (m : Manager) (key : String) (limitRPM : Int)
    (tLimit tBurst : Time) (hwf : WellFormed m) :
    WellFormed (m.GetLimiter key limitRPM tLimit tBurst).2 := by
  obtain ⟨hlt, hinj⟩ := hwf
  rcases GetLimiter_cases m key limitRPM tLimit tBurst with
    ⟨habs, heq⟩ | ⟨p, -, -, heq⟩ | ⟨p, l, -, -, -, heq⟩ | ⟨p, l, -, -, -, heq⟩
  · rw [heq]
    constructor
    · intro key' q hq
      simp only [List.length_append, List.length_singleton]
      by_cases hk : key' = key
      · subst hk
        rw [GoMap.get_set_self] at hq
        cases hq
        omega
      · rw [GoMap.get_set_ne _ _ _ _ hk] at hq
        have := hlt key' q hq
        omega
    · intro k1 k2 q h1 h2
      by_cases hk1 : k1 = key
      · by_cases hk2 : k2 = key
        · rw [hk1, hk2]
        · subst hk1
          rw [GoMap.get_set_self] at h1
          rw [GoMap.get_set_ne _ _ _ _ hk2] at h2
          cases h1
          have := hlt k2 _ h2
          omega
      · by_cases hk2 : k2 = key
        · subst hk2
          rw [GoMap.get_set_self] at h2
          rw [GoMap.get_set_ne _ _ _ _ hk1] at h1
          cases h2
          have := hlt k1 _ h1
          omega
        · rw [GoMap.get_set_ne _ _ _ _ hk1] at h1
          rw [GoMap.get_set_ne _ _ _ _ hk2] at h2
          exact hinj k1 k2 q h1 h2
  · rw [heq]
    exact ⟨hlt, hinj⟩
  · rw [heq]
    exact ⟨hlt, hinj⟩
  · rw [heq]
    refine ⟨?_, hinj⟩
    intro key' q hq
    simp only [List.length_set]
    exact hlt key' q hq

theorem Consistent_GetLimiter (m : Manager) (key : String) (limitRPM : Int)
    (tLimit tBurst : Time) (hc : Consistent m) :
    Consistent (m.GetLimiter key limitRPM tLimit tBurst).2 := by
  rcases GetLimiter_cases m key limitRPM tLimit tBurst with
    ⟨habs, heq⟩ | ⟨p, -, -, heq⟩ | ⟨p, l, -, -, -, heq⟩ | ⟨p, l, -, -, -, heq⟩
  · rw [heq]
    intro l hl
    simp only [List.mem_append, List.mem_singleton] at hl
    rcases hl with hl | rfl
    · exact hc l hl
    · rfl
  · rw [heq]
    exact hc
  · rw [heq]
    exact hc
  · rw [heq]
    intro l' hl'
    rcases List.mem_or_eq_of_mem_set hl' with h | rfl
    · exact hc l' h
    · rfl

/-- An admission check never breaks `rate = rate.Limit(burst) / 60.0`. -/
theorem Limiter.Allow_config (l : Limiter) (now : Time) (h : l.limit = perSecond l.burst) :
    (l.Allow now).1.limit = perSecond (l.Allow now).1.burst := by
  unfold Limiter.Allow Limiter.reserveN
  split_ifs with hInf h0 hge
  · exact h
  · have hb : l.burst = 0 := perSecond_eq_zero (h ▸ h0)
    rw [hb] at hge
    exact absurd hge (by decide)
  · exact h
  · simp only [Limiter.advance]
    split_ifs <;> exact h

theorem Allow_cases (m : Manager) (key : String) (limitRPM : Int) (tLimit tBurst tAllow : Time) :
    (m.Allow key limitRPM tLimit tBurst tAllow).2 = m ∨
      (m.Allow key limitRPM tLimit tBurst tAllow).2 =
          (m.GetLimiter key limitRPM tLimit tBurst).2 ∨
        ∃ l, (m.GetLimiter key limitRPM tLimit tBurst).2.heap[
              (m.GetLimiter key limitRPM tLimit tBurst).1]? = some l ∧
          (m.Allow key limitRPM tLimit tBurst tAllow).2 =
            { (m.GetLimiter key limitRPM tLimit tBurst).2 with
              heap := (m.GetLimiter key limitRPM tLimit tBurst).2.heap.set
                (m.GetLimiter key limitRPM tLimit tBurst).1 (l.Allow tAllow).1 } := by
  by_cases hle : limitRPM ≤ 0
  · left
    simp [Manager.Allow, hle]
  · right
    cases hl : (m.GetLimiter key limitRPM tLimit tBurst).2.heap[
        (m.GetLimiter key limitRPM tLimit tBurst).1]? with
    | none =>
      left
      simp [Manager.Allow, hle, hl]
    | some l =>
      right
      exact ⟨l, rfl, by simp [Manager.Allow, hle, hl]⟩

theorem WellFormed_Allow (m : Manager) (key : String) (limitRPM : Int)
    (tLimit tBurst tAllow : Time) (hwf : WellFormed m) :
    WellFormed (m.Allow key limitRPM tLimit tBurst tAllow).2 := by
  have hg := WellFormed_GetLimiter m key limitRPM tLimit tBurst hwf
  rcases Allow_cases m key limitRPM tLimit tBurst tAllow with h | h | ⟨l, -, h⟩
  · rw [h]; exact hwf
  · rw [h]; exact hg
  · rw [h]
    refine ⟨?_, hg.2⟩
    intro key' q hq
    simp only [List.length_set]
    exact hg.1 key' q hq

theorem Consistent_Allow (m : Manager) (key : String) (limitRPM : Int)
    (tLimit tBurst tAllow : Time) (hc : Consistent m) :
    Consistent (m.Allow key limitRPM tLimit tBurst tAllow).2 := by
  have hg := Consistent_GetLimiter m key limitRPM tLimit tBurst hc
  rcases Allow_cases m key limitRPM tLimit tBurst tAllow with h | h | ⟨l, hl, h⟩
  · rw [h]; exact hc
  · rw [h]; exact hg
  · rw [h]
    intro l' hl'
    rcases List.mem_or_eq_of_mem_set hl' with h' | rfl
    · exact hg l' h'
    · exact Limiter.Allow_config l tAllow (hg l (List.getElem?_mem hl))

theorem Reachable.wellFormed {m : Manager} (h : Reachable m) : WellFormed m := by
  induction h with
  | init =>
    constructor
    · intro key p hp
      simp [NewManager, GoMap.get] at hp
    · intro key key' p hp
      simp [NewManager, GoMap.get] at hp
  | getLimiter m key limitRPM tLimit tBurst _ ih =>
    exact WellFormed_GetLimiter m key limitRPM tLimit tBurst ih
  | allow m key limitRPM tLimit tBurst tAllow _ ih =>
    exact WellFormed_Allow m key limitRPM tLimit tBurst tAllow ih

theorem Reachable.consistent {m : Manager} (h : Reachable m) : Consistent m := by
  induction h with
  | init =>
    intro l hl
    simp [NewManager] at hl
  | getLimiter m key limitRPM tLimit tBurst _ ih =>
    exact Consistent_GetLimiter m key limitRPM tLimit tBurst ih
  | allow m key limitRPM tLimit tBurst tAllow _ ih =>
    exact Consistent_Allow m key limitRPM tLimit tBurst tAllow ih

/-- An admission check stores a `float64` count. -/
theorem Limiter.Allow_tokens_rounded (l : Limiter) (now : Time)
    (h : float64 l.tokens = l.tokens) :
    float64 (l.Allow now).1.tokens = (l.Allow now).1.tokens := by
  unfold Limiter.Allow Limiter.reserveN
  split_ifs with hInf h0 hge
  · exact h
  · exact h
  · exact h
  · generalize l.advance now = pr
    obtain ⟨t, tok⟩ := pr
    simp only []
    split_ifs <;> first | exact float64_idem _ | exact h

theorem TokensRounded_GetLimiter (m : Manager) (key : String) (limitRPM : Int)
    (tLimit tBurst : Time) (hc : TokensRounded m) :
    TokensRounded (m.GetLimiter key limitRPM tLimit tBurst).2 := by
  rcases GetLimiter_cases m key limitRPM tLimit tBurst with
    ⟨habs, heq⟩ | ⟨p, -, -, heq⟩ | ⟨p, l, -, -, -, heq⟩ | ⟨p, l, -, -, -, heq⟩
  · rw [heq]
    intro l hl
    simp only [List.mem_append, List.mem_singleton] at hl
    rcases hl with hl | rfl
    · exact hc l hl
    · exact float64_idem _
  · rw [heq]
    exact hc
  · rw [heq]
    exact hc
  · rw [heq]
    intro l' hl'
    rcases List.mem_or_eq_of_mem_set hl' with h | rfl
    · exact hc l' h
    · exact Limiter.advance_snd_rounded _ _

theorem TokensRounded_Allow (m : Manager) (key : String) (limitRPM : Int)
    (tLimit tBurst tAllow : Time) (hc : TokensRounded m) :
    TokensRounded (m.Allow key limitRPM tLimit tBurst tAllow).2 := by
  have hg := TokensRounded_GetLimiter m key limitRPM tLimit tBurst hc
  rcases Allow_cases m key limitRPM tLimit tBurst tAllow with h | h | ⟨l, hl, h⟩
  · rw [h]; exact hc
  · rw [h]; exact hg
  · rw [h]
    intro l' hl'
    rcases List.mem_or_eq_of_mem_set hl' with h' | rfl
    · exact hg l' h'
    · exact Limiter.Allow_tokens_rounded l tAllow (hg l (List.getElem?_mem hl))

theorem Reachable.tokensRounded {m : Manager} (h : Reachable m) : TokensRounded m := by
  induction h with
  | init =>
    intro l hl
    simp [NewManager] at hl
  | getLimiter m key limitRPM tLimit tBurst _ ih =>
    exact TokensRounded_GetLimiter m key limitRPM tLimit tBurst ih
  | allow m key limitRPM tLimit tBurst tAllow _ ih =>
    exact TokensRounded_Allow m key limitRPM tLimit tBurst tAllow ih

end ratelimit

/-! ### A refill computed in `float64` -/

/-- The sum `6 + float64(7 / 60)` rounded to `float64`. -/
theorem float64_refill_7 :
    float64 (6 + 4203359652212463 / 2 ^ 55) = 6886754430187383 / 2 ^ 50 := by
  have hlog : Int.log 2 |((6 : ℚ) + 4203359652212463 / 2 ^ 55)| = 2 := by
    rw [abs_of_pos (by norm_num)]
    apply log_two_eq_of_bounds <;> norm_num
  have hne : ((6 : ℚ) + 4203359652212463 / 2 ^ 55) ≠ 0 := by norm_num
  unfold float64
  rw [if_neg hne, hlog]
  norm_num [roundEven]

namespace rate

/-- One second is `1.0` seconds. -/
theorem Duration.Seconds_second : Duration.Seconds 1000000000 = 1 := by
  simp [Duration.Seconds, Second, float64_zero, float64_one]

end rate

namespace ratelimit

open rate

/-- The rate of 7 requests per minute, `float64(7) / 60.0`. -/
theorem perSecond_7 : perSecond 7 = 4203359652212463 / 2 ^ 55 := by
  have h7 : float64 ((7 : Int) : ℚ) = 7 := by
    have h := float64_intCast 7 (by norm_num)
    exact_mod_cast h
  have hlog : Int.log 2 |((7 : ℚ) / 60)| = -4 := by
    rw [abs_of_pos (by norm_num)]
    apply log_two_eq_of_bounds <;> norm_num
  have hne : ((7 : ℚ) / 60) ≠ 0 := by norm_num
  unfold perSecond
  rw [h7]
  unfold float64
  rw [if_neg hne, hlog]
  norm_num [roundEven]

/-- A refill in `float64`: a limiter made for 7 requests per minute admits one
request and, one second later, is set to 8 requests per minute; it then stores
`float64(6 + float64(7 / 60))` tokens, the `float64` `6886754430187383 / 2 ^ 50`,
where the exact sum `6 + 7 / 60` is not a `float64`. -/
theorem GetLimiter_refill_one_second :
    ∃ l, (((NewManager.GetLimiter "a" 7 0 0).2.Allow "a" 7 0 0 0).2.GetLimiter
          "a" 8 1000000000 1000000000).2.heap[0]? = some l ∧
      l.limit = perSecond 8 ∧ l.burst = 8 ∧ l.tokens = 6886754430187383 / 2 ^ 50 := by
  have h7 : float64 ((7 : Int) : ℚ) = 7 := by
    have h := float64_intCast 7 (by norm_num)
    exact_mod_cast h
  have h6 : float64 ((7 : ℚ) - 1) = 7 - 1 := by
    have h := float64_intCast 6 (by norm_num)
    norm_num at h ⊢
    exact h
  have hInf : perSecond 7 ≠ rate.Inf := perSecond_ne_Inf_of_le 7 (by norm_num) (by norm_num)
  have hm1 : (NewManager.GetLimiter "a" 7 0 0).2 =
      ⟨[("a", 0)], [NewLimiter (perSecond 7) 7]⟩ := rfl
  have hfull : ((NewLimiter (perSecond 7) 7).advance 0).2 = 7 := by
    have h := Limiter.advance_snd_of_full (NewLimiter (perSecond 7) 7) 0 (by decide)
      (by norm_num [NewLimiter]) rfl
    rw [← h7]
    exact h
  have hallow := Limiter.check_of_token (NewLimiter (perSecond 7) 7) 0 7
    (perSecond_pos (by norm_num)) hInf (by decide) hfull (by norm_num) h6
  have hm2 : (Manager.Allow ⟨[("a", 0)], [NewLimiter (perSecond 7) 7]⟩ "a" 7 0 0 0).2 =
      ⟨[("a", 0)], [⟨perSecond 7, 7, 7 - 1, 0, 0⟩]⟩ := by
    have hget := GetLimiter_of_same_rate ⟨[("a", 0)], [NewLimiter (perSecond 7) 7]⟩ "a" 7 0 0 0
      (NewLimiter (perSecond 7) 7) rfl rfl rfl
    have hnot : ¬ (7 : Int) ≤ 0 := by decide
    simp only [Manager.Allow, hnot, if_false, hget, List.getElem?_cons_zero, hallow]
    rfl
  have hrate : (⟨perSecond 7, 7, 7 - 1, 0, 0⟩ : Limiter).limit ≠ perSecond 8 := fun h =>
    absurd (@perSecond_injective 7 8 (by norm_num) (by norm_num) h) (by decide)
  have hget := GetLimiter_of_other_rate ⟨[("a", 0)], [⟨perSecond 7, 7, 7 - 1, 0, 0⟩]⟩ "a" 8
    1000000000 1000000000 0 ⟨perSecond 7, 7, 7 - 1, 0, 0⟩ rfl rfl hrate
  have htok := Limiter.SetLimitAt_SetBurstAt_tokens_same ⟨perSecond 7, 7, 7 - 1, 0, 0⟩
    1000000000 (perSecond 8) 8
  have hsub : Time.Sub 1000000000 0 = 1000000000 := by
    simp [Time.Sub, InfDuration]
  have hdelta : tokensFromDuration (perSecond 7) 1000000000 = 4203359652212463 / 2 ^ 55 := by
    have hpos : ¬ perSecond 7 ≤ 0 := not_le.mpr (perSecond_pos (by norm_num))
    simp only [tokensFromDuration, hpos, if_false, Duration.Seconds_second, one_mul]
    have hq : float64 (perSecond 7) = perSecond 7 := float64_idem _
    rw [hq, perSecond_7]
  have hadv : (⟨perSecond 7, 7, 7 - 1, 0, 0⟩ : Limiter).TokensAt 1000000000 =
      6886754430187383 / 2 ^ 50 := by
    rw [Limiter.TokensAt, Limiter.advance_snd_eq_min]
    show min (float64 ((7 : Int) : ℚ))
      (float64 ((7 : ℚ) - 1 +
        tokensFromDuration (perSecond 7) (Time.Sub 1000000000 (min 1000000000 0)))) = _
    have hsum : ((7 : ℚ) - 1 + 4203359652212463 / 2 ^ 55) = 6 + 4203359652212463 / 2 ^ 55 := by
      norm_num
    rw [min_eq_right (show (0 : Time) ≤ 1000000000 by norm_num), hsub, hdelta, hsum,
      float64_refill_7, h7]
    norm_num
  rw [hm1, hm2, hget]
  exact ⟨_, rfl, rfl, rfl, htok.trans hadv⟩

end ratelimit

/-! ## Admission control: the claims -/

namespace ratelimit

open rate

/-- C1 (amended): for every limit `n` with `0 < n ≤ 60000000000` and every key
the registry does not hold yet, when every clock read returns the same instant,
the first `n` consecutive calls `Allow(key, n)` return true and call `n + 1`
returns false. -/
theorem Allow_burst_then_refused (m : Manager) (key : String) (n : Nat) (now : Time)
    (habs : m.limiters.get key = none) (hpos : 0 < n) (hle : n ≤ 60000000000) :
    (allowRepeated key n now (n + 1) m).1 = List.replicate n true ++ [false] := by
  obtain ⟨k, rfl⟩ : ∃ k, n = k + 1 := ⟨n - 1, by omega⟩
  have hN : (0 : Int) < ((k + 1 : Nat) : Int) := by exact_mod_cast Nat.succ_pos k
  have hle' : ((k + 1 : Nat) : Int) ≤ 60000000000 := by exact_mod_cast hle
  have hexact : k + 1 ≤ 2 ^ 53 := le_trans hle (by norm_num)
  have hInf := perSecond_ne_Inf_of_le _ hN hle'
  obtain ⟨hok, hb⟩ := Allow_of_absent m key k now habs hexact hInf
  have hN53 : ((k + 1 : Nat) : Int) ≤ 2 ^ 53 := by exact_mod_cast hexact
  obtain ⟨hoks, hb0⟩ := allowRepeated_drain key m.heap.length _ now hN hN53 hInf k _ hb
  have hlast := Allow_of_empty _ key m.heap.length _ now hN hle' hb0
  rw [allowRepeated_succ, allowRepeated_add key _ now k 1, hok, hoks, allowRepeated_succ, hlast]
  simp [allowRepeated, List.replicate_succ (n := k)]

/-- C1, the spec's instance: on a new manager, 60 immediate calls at 60
requests per minute succeed and the 61st fails. -/
theorem Allow_burst_then_refused_witness :
    NewManager.limiters.get "client" = none ∧
      (allowRepeated "client" (60 : Nat) 0 (60 + 1) NewManager).1 =
        List.replicate 60 true ++ [false] :=
  ⟨rfl, Allow_burst_then_refused NewManager "client" 60 0 rfl (by decide) (by decide)⟩

/-- C1 as stated fails at `n = 120000000000`: with no time elapsing, call
`n + 1` is admitted too, because the wait for the missing token, half a
nanosecond, is cut to zero. -/
theorem Allow_burst_then_admitted_at_120000000000 :
    ¬ ((allowRepeated "client" (120000000000 : Nat) 0 (120000000000 + 1) NewManager).1 =
        List.replicate 120000000000 true ++ [false]) := by
  have hrate : perSecond ((120000000000 : Nat) : Int) = 2000000000 := by
    have h := perSecond_of_multiple 2000000000 (by norm_num)
    norm_num at h ⊢
    exact h
  have hge : 2000000000 ≤ perSecond ((120000000000 : Nat) : Int) := by
    rw [hrate]
  have hInf : perSecond ((120000000000 : Nat) : Int) ≠ rate.Inf := by
    rw [hrate]
    unfold rate.Inf
    norm_num
  have h := allowRepeated_fast NewManager "client" 120000000000 0 rfl (by decide)
    (by norm_num) hge hInf
  rw [h]
  exact replicate_true_succ_ne 120000000000

/-- C2: for every registry state, key and `limitRPM ≤ 0`, `Allow` returns true
and the manager, registry and limiters alike, is exactly as it was. -/
theorem Allow_nonpositive_limit (m : Manager) (key : String) (limitRPM : Int)
    (tLimit tBurst tAllow : Time) (hle : limitRPM ≤ 0) :
    m.Allow key limitRPM tLimit tBurst tAllow = (true, m) := by
  simp [Manager.Allow, hle]

/-- C2 on a registry that holds an exhausted limiter for the key: the call with
limit `-5` is admitted and changes nothing. -/
theorem Allow_nonpositive_limit_witness :
    (-5 : Int) ≤ 0 ∧
      Manager.Allow ⟨[("client", 0)], [⟨1, 60, 0, 7, 7⟩]⟩ "client" (-5) 7 7 7 =
        (true, ⟨[("client", 0)], [⟨1, 60, 0, 7, 7⟩]⟩) :=
  ⟨by decide, Allow_nonpositive_limit ⟨[("client", 0)], [⟨1, 60, 0, 7, 7⟩]⟩ "client" (-5) 7 7 7
    (by decide)⟩

/-- C3: in every reachable registry that holds a limiter `l` at address `p` for
`key`, and for every `limitRPM` other than the limit `l` is configured for,
`GetLimiter(key, limitRPM)` returns the address `p` itself; the registry map
and the number of limiters are unchanged; the limiter at `p` now has the rate
of `limitRPM`, and burst `limitRPM` whenever its old rate differed, as it does
for limits below `2 ^ 52`.  Its token count is not reset: when the rate is
unchanged the limiter is untouched; when the rate changes, the stored count is
the float64 count of the old limiter refilled for the elapsed time and cut to
the old capacity, which for equal clock reads is the count `TokensAt` the old
limiter had on offer at that instant, and the count on offer afterwards is that
same count cut to the new capacity; with no time elapsed it is the old stored
count cut to the old capacity.  The limiters of all other keys are as
before. -/
theorem GetLimiter_changed_limit (m : Manager) (hreach : Reachable m) (key : String)
    (p : Nat) (l : Limiter) (limitRPM : Int) (tLimit tBurst : Time)
    (hkey : m.limiters.get key = some p) (hl : m.heap[p]? = some l)
    (hne : limitRPM ≠ l.burst) :
    (m.GetLimiter key limitRPM tLimit tBurst).1 = p ∧
      (m.GetLimiter key limitRPM tLimit tBurst).2.limiters = m.limiters ∧
      (m.GetLimiter key limitRPM tLimit tBurst).2.heap.length = m.heap.length ∧
      (∃ l', (m.GetLimiter key limitRPM tLimit tBurst).2.heap[p]? = some l' ∧
        l'.limit = perSecond limitRPM ∧
        (l.limit ≠ perSecond limitRPM → l'.burst = limitRPM) ∧
        (|limitRPM| < 2 ^ 52 → |l.burst| < 2 ^ 52 → l'.burst = limitRPM) ∧
        (|limitRPM| < 2 ^ 52 → |l.burst| < 2 ^ 52 → l.limit ≠ perSecond limitRPM) ∧
        (l.limit = perSecond limitRPM → l' = l) ∧
        (l.limit ≠ perSecond limitRPM →
          l'.tokens =
            min (float64 l.burst)
              (float64
                (min (float64 l.burst)
                    (float64
                      (l.tokens +
                        tokensFromDuration l.limit (Time.Sub tLimit (min tLimit l.last)))) +
                  tokensFromDuration (perSecond limitRPM)
                    (Time.Sub tBurst (min tBurst tLimit))))) ∧
        (l.limit ≠ perSecond limitRPM → tBurst = tLimit →
          l'.tokens = l.TokensAt tLimit ∧
            l'.TokensAt tLimit = min (l.TokensAt tLimit) (float64 limitRPM)) ∧
        (l.limit ≠ perSecond limitRPM → tLimit = l.last → tBurst = l.last →
          l'.tokens = min l.tokens (float64 l.burst)) ∧
        (tLimit = l.last → tBurst = l.last → l.tokens ≤ float64 l.burst →
          l'.tokens = l.tokens)) ∧
      ∀ key' q, key' ≠ key → m.limiters.get key' = some q →
        (m.GetLimiter key limitRPM tLimit tBurst).2.heap[q]? = m.heap[q]? := by
  have hwf := hreach.wellFormed
  have hcons := hreach.consistent l (List.getElem?_mem hl)
  have hrep := hreach.tokensRounded l (List.getElem?_mem hl)
  have hplt := lt_length_of_getElem? hl
  have hsmall : |limitRPM| < 2 ^ 52 → |l.burst| < 2 ^ 52 → l.limit ≠ perSecond limitRPM := by
    intro h1 h2 h
    rw [hcons] at h
    exact hne (perSecond_injective h2 h1 h).symm
  by_cases hrate : l.limit = perSecond limitRPM
  · rw [GetLimiter_of_same_rate m key limitRPM tLimit tBurst p l hkey hl hrate]
    refine ⟨rfl, rfl, rfl, ⟨l, hl, hrate, fun h => absurd hrate h,
      fun h1 h2 => absurd hrate (hsmall h1 h2), hsmall, fun _ => rfl,
      fun h => absurd hrate h, fun h => absurd hrate h, fun h => absurd hrate h,
      fun _ _ _ => rfl⟩, ?_⟩
    intro key' q _ _
    rfl
  · rw [GetLimiter_of_other_rate m key limitRPM tLimit tBurst p l hkey hl hrate]
    have htok := Limiter.SetLimitAt_SetBurstAt_tokens l tLimit tBurst (perSecond limitRPM)
      limitRPM
    have hsame := Limiter.SetLimitAt_SetBurstAt_tokens_same l tLimit (perSecond limitRPM)
      limitRPM
    refine ⟨rfl, rfl, by simp, ⟨_, List.getElem?_set_self hplt, rfl, fun _ => rfl,
      fun _ _ => rfl, hsmall, fun h => absurd h hrate, fun _ => htok, ?_, ?_, ?_⟩, ?_⟩
    · intro _ ht
      subst ht
      refine ⟨hsame, ?_⟩
      have hadv := Limiter.advance_snd_of_last_min
        ((l.SetLimitAt tBurst (perSecond limitRPM)).SetBurstAt tBurst limitRPM) tBurst rfl
        (by rw [hsame]; exact Limiter.advance_snd_rounded l tBurst)
      rw [hsame] at hadv
      exact hadv
    · intro _ h1 h2
      subst h1
      subst h2
      rw [hsame]
      exact Limiter.advance_snd_of_last_min l l.last rfl hrep
    · intro h1 h2 hle
      subst h1
      subst h2
      rw [hsame]
      exact Limiter.advance_snd_of_last l l.last rfl hrep hle
    · intro key' q hk hq
      have hqp : p ≠ q := by
        intro h
        subst h
        exact hk (hwf.2 key' key p hq hkey)
      exact List.getElem?_set_ne hqp

/-- C3 on a registry whose limiter stores more tokens than its capacity: after
`GetLimiter("a", 60)` and `GetLimiter("a", 30)` the limiter of `"a"` has burst
30, stores 60 tokens and has 30 on offer; `GetLimiter("a", 45)` at the same
instant returns address 0 again, sets rate and burst to those of 45, and the
limiter then stores 30 tokens and has 30 on offer, the count it had on offer
before the call and not the 45 of a new limiter. -/
theorem GetLimiter_changed_limit_witness :
    ∃ l l',
      ((NewManager.GetLimiter "a" 60 5 5).2.GetLimiter "a" 30 5 5).2.heap[0]? = some l ∧
      l.burst = 30 ∧ l.tokens = 60 ∧ l.TokensAt 5 = 30 ∧
      (((NewManager.GetLimiter "a" 60 5 5).2.GetLimiter "a" 30 5 5).2.GetLimiter
          "a" 45 5 5).1 = 0 ∧
      (((NewManager.GetLimiter "a" 60 5 5).2.GetLimiter "a" 30 5 5).2.GetLimiter
          "a" 45 5 5).2.limiters = [("a", 0)] ∧
      (((NewManager.GetLimiter "a" 60 5 5).2.GetLimiter "a" 30 5 5).2.GetLimiter
          "a" 45 5 5).2.heap[0]? = some l' ∧
      l'.limit = perSecond 45 ∧ l'.burst = 45 ∧ l'.tokens = 30 ∧ l'.TokensAt 5 = 30 := by
  have h60 : float64 ((60 : Int) : ℚ) = 60 := by
    have h := float64_intCast 60 (by norm_num)
    exact_mod_cast h
  have h30 : float64 ((30 : Int) : ℚ) = 30 := by
    have h := float64_intCast 30 (by norm_num)
    exact_mod_cast h
  have h45 : float64 ((45 : Int) : ℚ) = 45 := by
    have h := float64_intCast 45 (by norm_num)
    exact_mod_cast h
  have hrate1 : (NewLimiter (perSecond 60) 60).limit ≠ perSecond 30 := fun h =>
    absurd (perSecond_injective (by norm_num) (by norm_num) h) (by decide)
  have hm : ((NewManager.GetLimiter "a" 60 5 5).2.GetLimiter "a" 30 5 5).2 =
      ⟨[("a", 0)],
        [((NewLimiter (perSecond 60) 60).SetLimitAt 5 (perSecond 30)).SetBurstAt 5 30]⟩ := by
    have h1 : (NewManager.GetLimiter "a" 60 5 5).2 =
        ⟨[("a", 0)], [NewLimiter (perSecond 60) 60]⟩ := rfl
    rw [h1, GetLimiter_of_other_rate ⟨[("a", 0)], [NewLimiter (perSecond 60) 60]⟩ "a" 30 5 5 0
      (NewLimiter (perSecond 60) 60) rfl rfl hrate1]
    rfl
  have hfull : (NewLimiter (perSecond 60) 60).TokensAt 5 = 60 := by
    have h := Limiter.advance_snd_of_full (NewLimiter (perSecond 60) 60) 5 (by decide)
      (by norm_num [NewLimiter]) rfl
    rw [← h60]
    exact h
  have htok : (((NewLimiter (perSecond 60) 60).SetLimitAt 5 (perSecond 30)).SetBurstAt 5
      30).tokens = 60 := by
    rw [Limiter.SetLimitAt_SetBurstAt_tokens_same, hfull]
  have hoffer : (((NewLimiter (perSecond 60) 60).SetLimitAt 5 (perSecond 30)).SetBurstAt 5
      30).TokensAt 5 = 30 := by
    have h := Limiter.advance_snd_of_last_min
      (((NewLimiter (perSecond 60) 60).SetLimitAt 5 (perSecond 30)).SetBurstAt 5 30) 5 rfl
      (by rw [htok]; exact_mod_cast h60)
    rw [htok] at h
    have hb : float64 (((((NewLimiter (perSecond 60) 60).SetLimitAt 5 (perSecond 30)).SetBurstAt 5
        30).burst : Int) : ℚ) = 30 := h30
    rw [hb] at h
    rw [Limiter.TokensAt, h]
    norm_num
  have hrate2 : (((NewLimiter (perSecond 60) 60).SetLimitAt 5 (perSecond 30)).SetBurstAt 5
      30).limit ≠ perSecond 45 := fun h =>
    absurd (@perSecond_injective 30 45 (by norm_num) (by norm_num) h) (by decide)
  obtain ⟨ha, hb, -, ⟨l', hl', hlim, hburst, -, -, -, -, hkeep, -, -⟩, -⟩ :=
    GetLimiter_changed_limit
      ((NewManager.GetLimiter "a" 60 5 5).2.GetLimiter "a" 30 5 5).2
      (Reachable.getLimiter _ "a" 30 5 5 (Reachable.getLimiter _ "a" 60 5 5 Reachable.init))
      "a" 0 (((NewLimiter (perSecond 60) 60).SetLimitAt 5 (perSecond 30)).SetBurstAt 5 30)
      45 5 5 (by rw [hm]; rfl) (by rw [hm]; rfl) (by decide)
  obtain ⟨hk1, hk2⟩ := hkeep hrate2 rfl
  refine ⟨_, l', by rw [hm]; rfl, rfl, htok, hoffer, ha, ?_, hl', hlim, hburst hrate2, ?_, ?_⟩
  · rw [hb, hm]
  · rw [hk1, hoffer]
  · rw [hk2, hoffer, h45]
    norm_num

/-- C4 (amended): in every registry reachable from `NewManager()` by
`GetLimiter` and `Allow` calls, every registered limiter exists and has
`rate = rate.Limit(burst) / 60.0`; hence for every key and every `limitRPM` the
limiter that `GetLimiter` returns has the rate of `limitRPM` and a burst of
that same rate; the burst is `limitRPM` itself when the limiter is created or
updated by the call, and on the fast path whenever `limitRPM` and the burst are
below `2 ^ 52` in absolute value. -/
theorem Reachable_rate_burst (m : Manager) (hreach : Reachable m) :
    (∀ key p, m.limiters.get key = some p →
        ∃ l, m.heap[p]? = some l ∧ l.limit = perSecond l.burst) ∧
      ∀ (key : String) (limitRPM : Int) (tLimit tBurst : Time),
        ∃ l, (m.GetLimiter key limitRPM tLimit tBurst).2.heap[
            (m.GetLimiter key limitRPM tLimit tBurst).1]? = some l ∧
          l.limit = perSecond limitRPM ∧ perSecond l.burst = perSecond limitRPM ∧
          (m.limiters.get key = none → l.burst = limitRPM) ∧
          (∀ p l0, m.limiters.get key = some p → m.heap[p]? = some l0 →
            l0.limit ≠ perSecond limitRPM → l.burst = limitRPM) ∧
          (|limitRPM| < 2 ^ 52 → |l.burst| < 2 ^ 52 → l.burst = limitRPM) := by
  have hwf := hreach.wellFormed
  have hcons := hreach.consistent
  constructor
  · intro key p hp
    have hlt := hwf.1 key p hp
    refine ⟨m.heap[p], List.getElem?_eq_getElem hlt, ?_⟩
    exact hcons _ (List.getElem_mem hlt)
  · intro key limitRPM tLimit tBurst
    rcases GetLimiter_cases m key limitRPM tLimit tBurst with
      ⟨habs, heq⟩ | ⟨p, hkey, hnone, heq⟩ | ⟨p, l, hkey, hl, hrate, heq⟩ |
        ⟨p, l, hkey, hl, hrate, heq⟩
    · rw [heq]
      exact ⟨NewLimiter (perSecond limitRPM) limitRPM, by simp, rfl, rfl, fun _ => rfl,
        fun _ _ _ _ _ => rfl, fun _ _ => rfl⟩
    · have hlt := hwf.1 key p hkey
      rw [List.getElem?_eq_getElem hlt] at hnone
      cases hnone
    · rw [heq]
      have h := hcons l (List.getElem?_mem hl)
      refine ⟨l, hl, hrate, ?_, ?_, ?_, ?_⟩
      · rw [← h, hrate]
      · intro habs
        rw [hkey] at habs
        cases habs
      · intro p' l0 hp' hl0 hne
        rw [hkey] at hp'
        cases hp'
        rw [hl] at hl0
        cases hl0
        exact absurd hrate hne
      · intro h1 h2
        rw [hrate] at h
        exact (perSecond_injective h1 h2 h).symm
    · rw [heq]
      exact ⟨_, List.getElem?_set_self (lt_length_of_getElem? hl), rfl, rfl, fun _ => rfl,
        fun _ _ _ _ _ => rfl, fun _ _ => rfl⟩

/-- C4 on the registry reached by `GetLimiter("a", 60)` and one `Allow("a", 60)`:
`GetLimiter("a", 60)` returns a limiter with the rate of 60 whose burst has
that rate too. -/
theorem Reachable_rate_burst_witness :
    ∃ l, (((NewManager.GetLimiter "a" 60 0 0).2.Allow "a" 60 1 1 1).2.GetLimiter
            "a" 60 2 2).2.heap[
          (((NewManager.GetLimiter "a" 60 0 0).2.Allow "a" 60 1 1 1).2.GetLimiter
            "a" 60 2 2).1]? = some l ∧
      l.limit = perSecond 60 ∧ perSecond l.burst = perSecond 60 := by
  obtain ⟨l, h1, h2, h3, -⟩ :=
    (Reachable_rate_burst ((NewManager.GetLimiter "a" 60 0 0).2.Allow "a" 60 1 1 1).2
      (Reachable.allow _ "a" 60 1 1 1 (Reachable.getLimiter _ "a" 60 0 0 Reachable.init))).2
      "a" 60 2 2
  exact ⟨l, h1, h2, h3⟩

/-- C4 as stated fails: after `GetLimiter("k", 9007199254740992)` the call
`GetLimiter("k", 9007199254740993)` finds an equal rate (both limits are the
same `float64`), takes the fast path and returns the limiter with burst
`9007199254740992`. -/
theorem GetLimiter_fast_path_other_burst :
    ∃ l, ((NewManager.GetLimiter "k" 9007199254740992 0 0).2.GetLimiter
            "k" 9007199254740993 0 0).2.heap[
          ((NewManager.GetLimiter "k" 9007199254740992 0 0).2.GetLimiter
            "k" 9007199254740993 0 0).1]? = some l ∧
      l.burst = 9007199254740992 ∧ l.burst ≠ 9007199254740993 := by
  have h1 : (NewManager.GetLimiter "k" 9007199254740992 0 0).2 =
      ⟨[("k", 0)], [NewLimiter (perSecond 9007199254740992) 9007199254740992]⟩ := rfl
  have h2 := GetLimiter_of_same_rate
    ⟨[("k", 0)], [NewLimiter (perSecond 9007199254740992) 9007199254740992]⟩
    "k" 9007199254740993 0 0 0 (NewLimiter (perSecond 9007199254740992) 9007199254740992)
    rfl rfl perSecond_9007199254740993.symm
  rw [h1, h2]
  exact ⟨_, rfl, rfl, by decide⟩

end ratelimit


/-! ### The per-model mapping built from the provider's list -/

theorem GoMap.get_eq_none_iff {V : Type} (m : GoMap V) (k : String) :
    m.get k = none ↔ k ∉ m.keys := by
  induction m with
  | nil => simp [GoMap.get, GoMap.keys]
  | cons e rest ih =>
    obtain ⟨k', v'⟩ := e
    by_cases h : k' = k
    · simp [GoMap.get, GoMap.keys, h]
    · have h' : ¬ k = k' := fun hk => h hk.symm
      simp only [GoMap.get, h, if_false, ih]
      simp [GoMap.keys, h']

theorem GoMap.set_of_get_none {V : Type} (m : GoMap V) (k : String) (v : V)
    (h : m.get k = none) : m.set k v = m ++ [(k, v)] := by
  induction m with
  | nil => rfl
  | cons e rest ih =>
    obtain ⟨k', v'⟩ := e
    by_cases hk : k' = k
    · simp [GoMap.get, hk] at h
    · simp only [GoMap.get, hk, if_false] at h
      simp [GoMap.set, hk, ih h]

theorem GoMap.keys_set {V : Type} (m : GoMap V) (k : String) (v : V) :
    (m.set k v).keys = if k ∈ m.keys then m.keys else m.keys ++ [k] := by
  induction m with
  | nil => simp [GoMap.set, GoMap.keys]
  | cons e rest ih =>
    obtain ⟨k', v'⟩ := e
    by_cases hk : k' = k
    · simp [GoMap.set, GoMap.keys, hk]
    · have hk' : ¬ k = k' := fun h => hk h.symm
      have ih' : List.map Prod.fst (GoMap.set rest k v) =
          if k ∈ List.map Prod.fst rest then List.map Prod.fst rest
          else List.map Prod.fst rest ++ [k] := ih
      simp only [GoMap.set, hk, if_false, GoMap.keys, List.map_cons, List.mem_cons, hk',
        false_or, ih']
      split_ifs <;> simp

theorem GoMap.nodup_keys_set {V : Type} (m : GoMap V) (k : String) (v : V)
    (h : m.keys.Nodup) : (m.set k v).keys.Nodup := by
  rw [GoMap.keys_set]
  split_ifs with hk
  · exact h
  · exact List.Nodup.append h (List.nodup_singleton k) (by simpa using hk)

theorem GoMap.mem_keys_set {V : Type} (m : GoMap V) (k k' : String) (v : V) :
    k' ∈ (m.set k v).keys ↔ k' = k ∨ k' ∈ m.keys := by
  rw [GoMap.keys_set]
  split_ifs with hk
  · constructor
    · exact fun h => Or.inr h
    · rintro (rfl | h)
      · exact hk
      · exact h
  · simp [or_comm]

namespace management

open usage

theorem accumulateModelStats_keys_nodup (stats : List database.ModelStats) :
    ∀ acc : APISnapshot, acc.Models.keys.Nodup →
      (accumulateModelStats acc stats).Models.keys.Nodup := by
  induction stats with
  | nil => exact fun acc h => h
  | cons ms rest ih =>
    intro acc h
    exact ih _ (GoMap.nodup_keys_set _ _ _ h)

theorem accumulateModelStats_mem_keys (stats : List database.ModelStats) :
    ∀ (acc : APISnapshot) (model : String),
      model ∈ (accumulateModelStats acc stats).Models.keys ↔
        model ∈ acc.Models.keys ∨ ∃ ms ∈ stats, ms.Model = model := by
  induction stats with
  | nil => simp [accumulateModelStats]
  | cons ms rest ih =>
    intro acc model
    simp only [accumulateModelStats, ih, GoMap.mem_keys_set, List.mem_cons, exists_eq_or_imp]
    constructor
    · rintro ((h | h) | h)
      · exact Or.inr (Or.inl h.symm)
      · exact Or.inl h
      · exact Or.inr (Or.inr h)
    · rintro (h | h | h)
      · exact Or.inl (Or.inr h)
      · exact Or.inl (Or.inl h.symm)
      · exact Or.inr h

/-- The value bound to a model is the one of the last element of the list that
names it. -/
theorem accumulateModelStats_get (stats : List database.ModelStats) :
    ∀ (acc : APISnapshot) (model : String),
      (accumulateModelStats acc stats).Models.get model =
        match stats.reverse.find? (fun ms => decide (ms.Model = model)) with
        | some ms => some (modelBinding ms).2
        | none => acc.Models.get model := by
  induction stats with
  | nil => simp [accumulateModelStats]
  | cons ms rest ih =>
    intro acc model
    simp only [accumulateModelStats, ih, List.reverse_cons, List.find?_append]
    cases hfind : rest.reverse.find? (fun ms => decide (ms.Model = model)) with
    | some found => simp
    | none =>
      by_cases hm : ms.Model = model
      · subst hm
        simp [GoMap.get_set_self, modelBinding]
      · have hm' : model ≠ ms.Model := fun h => hm h.symm
        simp [GoMap.get_set_ne _ _ _ _ hm', hm]

theorem wrapInt64_add_left (a b : Int) :
    wrapInt64 (wrapInt64 a + b) = wrapInt64 (a + b) := by
  unfold wrapInt64
  omega

theorem wrapInt64_of_range {x : Int} (hlo : -2 ^ 63 ≤ x) (hhi : x < 2 ^ 63) :
    wrapInt64 x = x := by
  unfold wrapInt64
  omega

/-- The totals after the loop over a non-empty list are the 64-bit sums of the
accumulator and the list's counts. -/
theorem accumulateModelStats_totals (rest : List database.ModelStats) :
    ∀ (acc : APISnapshot) (ms : database.ModelStats),
      (accumulateModelStats acc (ms :: rest)).TotalRequests =
          wrapInt64
            (acc.TotalRequests + ((ms :: rest).map (fun ms => ms.TotalRequests)).sum) ∧
        (accumulateModelStats acc (ms :: rest)).TotalTokens =
          wrapInt64 (acc.TotalTokens + ((ms :: rest).map (fun ms => ms.TotalTokens)).sum) := by
  induction rest with
  | nil =>
    intro acc ms
    simp [accumulateModelStats]
  | cons ms' rest' ih =>
    intro acc ms
    obtain ⟨h1, h2⟩ := ih
      { TotalRequests := wrapInt64 (acc.TotalRequests + ms.TotalRequests),
        TotalTokens := wrapInt64 (acc.TotalTokens + ms.TotalTokens),
        Models := acc.Models.set ms.Model
          { TotalRequests := ms.TotalRequests, TotalTokens := ms.TotalTokens } } ms'
    constructor
    · rw [accumulateModelStats, h1, wrapInt64_add_left]
      simp only [List.map_cons, List.sum_cons, add_assoc]
    · rw [accumulateModelStats, h2, wrapInt64_add_left]
      simp only [List.map_cons, List.sum_cons, add_assoc]

/-- With pairwise distinct model identifiers, none of them bound before, the
loop appends one binding per element. -/
theorem accumulateModelStats_models_of_nodup (stats : List database.ModelStats) :
    ∀ acc : APISnapshot, (stats.map (fun ms => ms.Model)).Nodup →
      (∀ ms ∈ stats, ms.Model ∉ acc.Models.keys) →
      (accumulateModelStats acc stats).Models = acc.Models ++ stats.map modelBinding := by
  induction stats with
  | nil => simp [accumulateModelStats]
  | cons ms rest ih =>
    intro acc hnd hfresh
    rw [List.map_cons, List.nodup_cons] at hnd
    have hms : acc.Models.get ms.Model = none :=
      (GoMap.get_eq_none_iff _ _).mpr (hfresh ms (List.mem_cons_self _ _))
    have hset := GoMap.set_of_get_none acc.Models ms.Model
      { TotalRequests := ms.TotalRequests, TotalTokens := ms.TotalTokens } hms
    simp only [accumulateModelStats]
    rw [ih _ hnd.2]
    · simp [hset, modelBinding]
    · intro ms' hms'
      simp only [hset, GoMap.keys, List.map_append, List.map_cons, List.map_nil,
        List.mem_append, List.mem_singleton, not_or]
      constructor
      · exact hfresh ms' (List.mem_cons_of_mem _ hms')
      · intro heq
        apply hnd.1
        rw [← heq]
        exact List.mem_map_of_mem (fun ms => ms.Model) hms'

end management

/-! ## Usage import and overview: the claims -/

namespace management

open usage

/-- C5: for a handler with a ledger and a request body that was read, the import
is rejected with "invalid json" when the bytes do not decode; when they decode
it is rejected with "unsupported version" exactly when the version is neither
0 nor 1 (a missing version counts as 0); an accepted payload is the one passed
to `MergeSnapshot`; and every rejected call, whatever the handler, the body and
`MergeSnapshot` are, leaves the handler and its ledger as they were. -/
theorem ImportUsageStatistics_rejections {Ledger : Type}
    (Snapshot : Ledger → StatisticsSnapshot)
    (MergeSnapshot : Ledger → StatisticsSnapshot → MergeResult × Ledger)
    (parse : List UInt8 → Option ImportDocument) (stats : Ledger) (data : List UInt8) :
    (parse data = none →
        ImportUsageStatistics Snapshot MergeSnapshot parse (some ⟨some stats⟩) (.ok data) =
          (.rejected 400 "invalid json", some ⟨some stats⟩)) ∧
      (∀ doc, parse data = some doc →
        ((doc.version.getD 0 ≠ 0 ∧ doc.version.getD 0 ≠ 1) →
          ImportUsageStatistics Snapshot MergeSnapshot parse (some ⟨some stats⟩) (.ok data) =
            (.rejected 400 "unsupported version", some ⟨some stats⟩)) ∧
        ((doc.version = none ∨ doc.version = some 0 ∨ doc.version = some 1) →
          ImportUsageStatistics Snapshot MergeSnapshot parse (some ⟨some stats⟩) (.ok data) =
            (.merged 200
                (MergeSnapshot stats (doc.usage.getD StatisticsSnapshot.zero)).1.Added
                (MergeSnapshot stats (doc.usage.getD StatisticsSnapshot.zero)).1.Skipped
                (Snapshot
                  (MergeSnapshot stats (doc.usage.getD StatisticsSnapshot.zero)).2).TotalRequests
                (Snapshot
                  (MergeSnapshot stats (doc.usage.getD StatisticsSnapshot.zero)).2).FailureCount,
              some ⟨some (MergeSnapshot stats (doc.usage.getD StatisticsSnapshot.zero)).2⟩))) ∧
      ((ImportUsageStatistics Snapshot MergeSnapshot parse (some ⟨some stats⟩) (.ok data)).1 =
          .rejected 400 "unsupported version" ↔
        ∃ doc, parse data = some doc ∧ doc.version.getD 0 ≠ 0 ∧ doc.version.getD 0 ≠ 1) ∧
      ∀ (h : Option (Handler Ledger)) (rawData : Except String (List UInt8)) (status : Nat)
        (error : String),
        (ImportUsageStatistics Snapshot MergeSnapshot parse h rawData).1 =
            .rejected status error →
          (ImportUsageStatistics Snapshot MergeSnapshot parse h rawData).2 = h := by
  refine ⟨?_, ?_, ?_, ?_⟩
  · intro h
    simp [ImportUsageStatistics, jsonUnmarshal, h]
  · intro doc h
    constructor
    · intro hv
      simp [ImportUsageStatistics, jsonUnmarshal, h, hv]
    · intro hv
      have hv' : ¬ (doc.version.getD 0 ≠ 0 ∧ doc.version.getD 0 ≠ 1) := by
        rcases hv with hv | hv | hv <;> simp [hv]
      simp only [ImportUsageStatistics, jsonUnmarshal, h, hv', if_false]
  · cases h : parse data with
    | none => simp [ImportUsageStatistics, jsonUnmarshal, h]
    | some doc =>
      by_cases hv : doc.version.getD 0 ≠ 0 ∧ doc.version.getD 0 ≠ 1
      · simp [ImportUsageStatistics, jsonUnmarshal, h, hv]
      · simp only [ImportUsageStatistics, jsonUnmarshal, h, hv, if_false]
        simp only [Option.some.injEq, exists_eq_left', hv, iff_false]
        intro hcontra
        cases hcontra
  · intro h rawData status error hrej
    rcases h with _ | ⟨_ | ledger⟩
    · rfl
    · rfl
    · rcases rawData with e | bytes
      · rfl
      · cases hp : parse bytes with
        | none => simp [ImportUsageStatistics, jsonUnmarshal, hp]
        | some doc =>
          by_cases hv : doc.version.getD 0 ≠ 0 ∧ doc.version.getD 0 ≠ 1
          · simp [ImportUsageStatistics, jsonUnmarshal, hp, hv]
          · simp only [ImportUsageStatistics, jsonUnmarshal, hp, hv, if_false] at hrej
            cases hrej

/-- C6: whatever the ledger holds and the other providers give, the four grand
totals of the overview are the provider's values when the totals provider
succeeds; when it fails they are the values of the ledger's snapshot
`Snapshot stats`, the live values, for a handler with its ledger, and the zero
values of the empty snapshot when the handler or its ledger is nil. -/
theorem GetUsageStatistics_grand_totals {Ledger : Type}
    (Snapshot : Ledger → StatisticsSnapshot) (h : Option (Handler Ledger)) (stats : Ledger)
    (globalStats : database.GlobalStats) (err : String)
    (periodCosts : Except String (ℚ × ℚ × ℚ))
    (modelStats : Except String (List database.ModelStats)) :
    ((GetUsageStatistics Snapshot h (.ok globalStats) periodCosts modelStats).usage.TotalRequests
          = globalStats.TotalRequests ∧
        (GetUsageStatistics Snapshot h (.ok globalStats) periodCosts modelStats).usage.TotalTokens
          = globalStats.TotalTokens ∧
        (GetUsageStatistics Snapshot h (.ok globalStats) periodCosts modelStats).usage.SuccessCount
          = globalStats.SuccessCount ∧
        (GetUsageStatistics Snapshot h (.ok globalStats) periodCosts modelStats).usage.FailureCount
          = globalStats.FailureCount) ∧
      ((GetUsageStatistics Snapshot (some ⟨some stats⟩) (.error err) periodCosts
            modelStats).usage.TotalRequests = (Snapshot stats).TotalRequests ∧
        (GetUsageStatistics Snapshot (some ⟨some stats⟩) (.error err) periodCosts
            modelStats).usage.TotalTokens = (Snapshot stats).TotalTokens ∧
        (GetUsageStatistics Snapshot (some ⟨some stats⟩) (.error err) periodCosts
            modelStats).usage.SuccessCount = (Snapshot stats).SuccessCount ∧
        (GetUsageStatistics Snapshot (some ⟨some stats⟩) (.error err) periodCosts
            modelStats).usage.FailureCount = (Snapshot stats).FailureCount) ∧
      ((GetUsageStatistics Snapshot (some ⟨none⟩) (.error err) periodCosts
            modelStats).usage.TotalRequests = 0 ∧
        (GetUsageStatistics Snapshot (some ⟨none⟩) (.error err) periodCosts
            modelStats).usage.TotalTokens = 0 ∧
        (GetUsageStatistics Snapshot (some ⟨none⟩) (.error err) periodCosts
            modelStats).usage.SuccessCount = 0 ∧
        (GetUsageStatistics Snapshot (some ⟨none⟩) (.error err) periodCosts
            modelStats).usage.FailureCount = 0) ∧
      ((GetUsageStatistics Snapshot none (.error err) periodCosts
            modelStats).usage.TotalRequests = 0 ∧
        (GetUsageStatistics Snapshot none (.error err) periodCosts
            modelStats).usage.TotalTokens = 0 ∧
        (GetUsageStatistics Snapshot none (.error err) periodCosts
            modelStats).usage.SuccessCount = 0 ∧
        (GetUsageStatistics Snapshot none (.error err) periodCosts
            modelStats).usage.FailureCount = 0) := by
  rcases periodCosts with e1 | ⟨c24, c7d, cTot⟩ <;>
    rcases modelStats with e2 | (_ | ⟨ms, rest⟩) <;>
    simp only [GetUsageStatistics, liveSnapshot, StatisticsSnapshot.zero] <;>
    (try split_ifs) <;>
    simp

/-- C6, the spec's instance: the ledger's snapshot has `total_requests = 10`;
when the totals provider returns 500 the overview reports 500, and when the
provider fails the overview reports 10, with the other three totals of the
ledger. -/
theorem GetUsageStatistics_grand_totals_witness :
    (GetUsageStatistics (fun s : StatisticsSnapshot => s)
        (some ⟨some ⟨10, 40, 9, 1, 0, 0, 0, none⟩⟩) (.ok ⟨500, 9000, 493, 7⟩)
        (.error "db") (.error "db")).usage.TotalRequests = 500 ∧
      ((GetUsageStatistics (fun s : StatisticsSnapshot => s)
          (some ⟨some ⟨10, 40, 9, 1, 0, 0, 0, none⟩⟩) (.error "db")
          (.error "db") (.error "db")).usage.TotalRequests = 10 ∧
        (GetUsageStatistics (fun s : StatisticsSnapshot => s)
          (some ⟨some ⟨10, 40, 9, 1, 0, 0, 0, none⟩⟩) (.error "db")
          (.error "db") (.error "db")).usage.TotalTokens = 40 ∧
        (GetUsageStatistics (fun s : StatisticsSnapshot => s)
          (some ⟨some ⟨10, 40, 9, 1, 0, 0, 0, none⟩⟩) (.error "db")
          (.error "db") (.error "db")).usage.SuccessCount = 9 ∧
        (GetUsageStatistics (fun s : StatisticsSnapshot => s)
          (some ⟨some ⟨10, 40, 9, 1, 0, 0, 0, none⟩⟩) (.error "db")
          (.error "db") (.error "db")).usage.FailureCount = 1) :=
  ⟨(GetUsageStatistics_grand_totals (fun s : StatisticsSnapshot => s)
      (some ⟨some ⟨10, 40, 9, 1, 0, 0, 0, none⟩⟩) ⟨10, 40, 9, 1, 0, 0, 0, none⟩
      ⟨500, 9000, 493, 7⟩ "db" (.error "db") (.error "db")).1.1,
    (GetUsageStatistics_grand_totals (fun s : StatisticsSnapshot => s)
      (some ⟨some ⟨10, 40, 9, 1, 0, 0, 0, none⟩⟩) ⟨10, 40, 9, 1, 0, 0, 0, none⟩
      ⟨500, 9000, 493, 7⟩ "db" (.error "db") (.error "db")).2.1⟩

/-- C9 (amended): the top-level `failed_requests` of the overview is the failure
count of the composed snapshot it is sent with: the provider's failure count
when the totals provider succeeds, the live failure count when it fails. -/
theorem GetUsageStatistics_failed_requests {Ledger : Type}
    (Snapshot : Ledger → StatisticsSnapshot) (h : Option (Handler Ledger))
    (globalStats : database.GlobalStats) (err : String)
    (totals : Except String database.GlobalStats)
    (periodCosts : Except String (ℚ × ℚ × ℚ))
    (modelStats : Except String (List database.ModelStats)) :
    (GetUsageStatistics Snapshot h totals periodCosts modelStats).failed_requests =
        (GetUsageStatistics Snapshot h totals periodCosts modelStats).usage.FailureCount ∧
      (GetUsageStatistics Snapshot h (.ok globalStats) periodCosts modelStats).failed_requests =
        globalStats.FailureCount ∧
      (GetUsageStatistics Snapshot h (.error err) periodCosts modelStats).failed_requests =
        (liveSnapshot Snapshot h).FailureCount := by
  refine ⟨rfl, ?_, ?_⟩ <;>
    rcases periodCosts with e1 | ⟨c24, c7d, cTot⟩ <;>
    rcases modelStats with e2 | (_ | ⟨ms, rest⟩) <;>
    simp only [GetUsageStatistics] <;>
    (try split_ifs) <;>
    simp

/-- C9 as stated fails: with a live failure count of 1 and a totals provider
that reports 7 failures, `failed_requests` is 7. -/
theorem GetUsageStatistics_failed_requests_not_live :
    (GetUsageStatistics (fun s : StatisticsSnapshot => s)
        (some ⟨some ⟨10, 40, 9, 1, 0, 0, 0, none⟩⟩) (.ok ⟨500, 9000, 493, 7⟩)
        (.error "db") (.error "db")).failed_requests = 7 ∧
      (liveSnapshot (fun s : StatisticsSnapshot => s)
        (some ⟨some ⟨10, 40, 9, 1, 0, 0, 0, none⟩⟩)).FailureCount = 1 :=
  ⟨rfl, rfl⟩

end management

namespace management

open usage

/-- C7: when the per-model provider succeeds with a non-empty list, the
per-source mapping of the overview is exactly one source, keyed
`"persistent_db_source"`; its mapping has one entry per model identifier of the
provider's list and no other, each holding the request and token counts of the
provider's (last) element for that model; no live source remains.  When the
provider fails or returns the empty list, the mapping is the one of the
ledger's snapshot `Snapshot stats`, the live mapping, for a handler with its
ledger, and the nil mapping of the empty snapshot when the handler or its
ledger is nil. -/
theorem GetUsageStatistics_sources {Ledger : Type}
    (Snapshot : Ledger → StatisticsSnapshot) (h : Option (Handler Ledger)) (stats : Ledger)
    (totals : Except String database.GlobalStats)
    (periodCosts : Except String (ℚ × ℚ × ℚ))
    (first : database.ModelStats) (more : List database.ModelStats) (err : String) :
    (∃ dbApi,
        (GetUsageStatistics Snapshot h totals periodCosts (.ok (first :: more))).usage.APIs =
          some [("persistent_db_source", dbApi)] ∧
        dbApi.Models.keys.Nodup ∧
        (∀ model, model ∈ dbApi.Models.keys ↔ ∃ ms ∈ first :: more, ms.Model = model) ∧
        ∀ model, dbApi.Models.get model =
          ((first :: more).reverse.find? (fun ms => decide (ms.Model = model))).map
            (fun ms => { TotalRequests := ms.TotalRequests, TotalTokens := ms.TotalTokens })) ∧
      ((GetUsageStatistics Snapshot (some ⟨some stats⟩) totals periodCosts
            (.error err)).usage.APIs = (Snapshot stats).APIs ∧
        (GetUsageStatistics Snapshot (some ⟨some stats⟩) totals periodCosts
            (.ok [])).usage.APIs = (Snapshot stats).APIs) ∧
      ((GetUsageStatistics Snapshot (some ⟨none⟩) totals periodCosts
            (.error err)).usage.APIs = none ∧
        (GetUsageStatistics Snapshot (some ⟨none⟩) totals periodCosts
            (.ok [])).usage.APIs = none) ∧
      ((GetUsageStatistics Snapshot none totals periodCosts (.error err)).usage.APIs = none ∧
        (GetUsageStatistics Snapshot none totals periodCosts (.ok [])).usage.APIs = none) := by
  refine ⟨⟨accumulateModelStats { TotalRequests := 0, TotalTokens := 0, Models := [] }
      (first :: more), ?_, ?_, ?_, ?_⟩, ⟨?_, ?_⟩, ⟨?_, ?_⟩, ⟨?_, ?_⟩⟩
  · rcases totals with e0 | g <;> rcases periodCosts with e1 | ⟨c24, c7d, cTot⟩ <;>
      simp only [GetUsageStatistics]
  · exact accumulateModelStats_keys_nodup _ _ (by simp [GoMap.keys])
  · intro model
    rw [accumulateModelStats_mem_keys]
    simp [GoMap.keys]
  · intro model
    rw [accumulateModelStats_get]
    cases (first :: more).reverse.find? (fun ms => decide (ms.Model = model)) with
    | some found => simp [modelBinding]
    | none => simp [GoMap.get]
  all_goals
    rcases totals with e0 | g <;> rcases periodCosts with e1 | ⟨c24, c7d, cTot⟩ <;> rfl

/-- C7 on a ledger with one live source `"key-1"`: when the per-model provider
fails or returns the empty list the overview keeps the source `"key-1"` with its
model; when the provider returns one element the mapping is a single source
keyed `"persistent_db_source"` and `"key-1"` is gone. -/
theorem GetUsageStatistics_sources_witness :
    ((GetUsageStatistics (fun s : StatisticsSnapshot => s)
          (some ⟨some ⟨3, 30, 3, 0, 0, 0, 0, some [("key-1", ⟨3, 30, [("gpt-4", ⟨3, 30⟩)]⟩)]⟩⟩)
          (.error "db") (.error "db") (.error "db")).usage.APIs =
        some [("key-1", ⟨3, 30, [("gpt-4", ⟨3, 30⟩)]⟩)] ∧
      (GetUsageStatistics (fun s : StatisticsSnapshot => s)
          (some ⟨some ⟨3, 30, 3, 0, 0, 0, 0, some [("key-1", ⟨3, 30, [("gpt-4", ⟨3, 30⟩)]⟩)]⟩⟩)
          (.error "db") (.error "db") (.ok [])).usage.APIs =
        some [("key-1", ⟨3, 30, [("gpt-4", ⟨3, 30⟩)]⟩)]) ∧
      ∃ dbApi,
        (GetUsageStatistics (fun s : StatisticsSnapshot => s)
          (some ⟨some ⟨3, 30, 3, 0, 0, 0, 0, some [("key-1", ⟨3, 30, [("gpt-4", ⟨3, 30⟩)]⟩)]⟩⟩)
          (.error "db") (.error "db") (.ok [⟨"gpt-4", 7, 70⟩])).usage.APIs =
            some [("persistent_db_source", dbApi)] ∧
          dbApi.Models.get "gpt-4" = some ⟨7, 70⟩ := by
  have hthm := GetUsageStatistics_sources (fun s : StatisticsSnapshot => s)
    (some ⟨some ⟨3, 30, 3, 0, 0, 0, 0, some [("key-1", ⟨3, 30, [("gpt-4", ⟨3, 30⟩)]⟩)]⟩⟩)
    ⟨3, 30, 3, 0, 0, 0, 0, some [("key-1", ⟨3, 30, [("gpt-4", ⟨3, 30⟩)]⟩)]⟩
    (.error "db") (.error "db") ⟨"gpt-4", 7, 70⟩ [] "db"
  obtain ⟨⟨dbApi, hapi, -, -, hget⟩, hlive, -, -⟩ := hthm
  exact ⟨hlive, dbApi, hapi, by rw [hget]; rfl⟩

/-- C8 (amended): for every non-empty provider list whose model identifiers are
pairwise distinct, the per-model mapping of the synthetic source has one entry
per element of the list, and the source's total requests and total tokens are
the 64-bit sums of the request and token counts over the entries of that
mapping; they equal the sums themselves whenever these lie in the range of
`int64`. -/
theorem GetUsageStatistics_source_totals {Ledger : Type}
    (Snapshot : Ledger → StatisticsSnapshot) (h : Option (Handler Ledger))
    (totals : Except String database.GlobalStats)
    (periodCosts : Except String (ℚ × ℚ × ℚ))
    (stats : List database.ModelStats) (hne : stats ≠ [])
    (hdistinct : (stats.map (fun ms => ms.Model)).Nodup) :
    ∃ dbApi,
      (GetUsageStatistics Snapshot h totals periodCosts (.ok stats)).usage.APIs =
        some [("persistent_db_source", dbApi)] ∧
      dbApi.Models = stats.map modelBinding ∧
      dbApi.TotalRequests =
        wrapInt64 (dbApi.Models.map (fun e => e.2.TotalRequests)).sum ∧
      dbApi.TotalTokens = wrapInt64 (dbApi.Models.map (fun e => e.2.TotalTokens)).sum ∧
      (-2 ^ 63 ≤ (dbApi.Models.map (fun e => e.2.TotalRequests)).sum →
        (dbApi.Models.map (fun e => e.2.TotalRequests)).sum < 2 ^ 63 →
        dbApi.TotalRequests = (dbApi.Models.map (fun e => e.2.TotalRequests)).sum) ∧
      (-2 ^ 63 ≤ (dbApi.Models.map (fun e => e.2.TotalTokens)).sum →
        (dbApi.Models.map (fun e => e.2.TotalTokens)).sum < 2 ^ 63 →
        dbApi.TotalTokens = (dbApi.Models.map (fun e => e.2.TotalTokens)).sum) := by
  obtain ⟨first, more, rfl⟩ : ∃ first more, stats = first :: more := by
    cases stats with
    | nil => exact absurd rfl hne
    | cons a b => exact ⟨a, b, rfl⟩
  have hmodels : (accumulateModelStats { TotalRequests := 0, TotalTokens := 0, Models := [] }
      (first :: more)).Models = (first :: more).map modelBinding := by
    rw [accumulateModelStats_models_of_nodup _ _ hdistinct (by simp [GoMap.keys])]
    simp
  have hreq : (accumulateModelStats { TotalRequests := 0, TotalTokens := 0, Models := [] }
      (first :: more)).TotalRequests =
      wrapInt64 (((accumulateModelStats { TotalRequests := 0, TotalTokens := 0, Models := [] }
        (first :: more)).Models.map (fun e => e.2.TotalRequests)).sum) := by
    rw [hmodels, (accumulateModelStats_totals more _ first).1]
    simp [modelBinding, Function.comp_def]
  have htok : (accumulateModelStats { TotalRequests := 0, TotalTokens := 0, Models := [] }
      (first :: more)).TotalTokens =
      wrapInt64 (((accumulateModelStats { TotalRequests := 0, TotalTokens := 0, Models := [] }
        (first :: more)).Models.map (fun e => e.2.TotalTokens)).sum) := by
    rw [hmodels, (accumulateModelStats_totals more _ first).2]
    simp [modelBinding, Function.comp_def]
  refine ⟨accumulateModelStats { TotalRequests := 0, TotalTokens := 0, Models := [] }
      (first :: more), ?_, hmodels, hreq, htok, ?_, ?_⟩
  · rcases totals with e0 | g <;> rcases periodCosts with e1 | ⟨c24, c7d, cTot⟩ <;>
      simp only [GetUsageStatistics]
  · intro hlo hhi
    rw [hreq]
    exact wrapInt64_of_range hlo hhi
  · intro hlo hhi
    rw [htok]
    exact wrapInt64_of_range hlo hhi

/-- C8 on the list `[("a", 1, 10), ("b", 2, 20)]`: the synthetic source has the
two models `"a"` and `"b"` and totals 3 and 30, the sums over them. -/
theorem GetUsageStatistics_source_totals_witness :
    [(⟨"a", 1, 10⟩ : database.ModelStats), ⟨"b", 2, 20⟩] ≠ [] ∧
      ([(⟨"a", 1, 10⟩ : database.ModelStats), ⟨"b", 2, 20⟩].map (fun ms => ms.Model)).Nodup ∧
      ∃ dbApi,
        (GetUsageStatistics (fun s : StatisticsSnapshot => s) none (.error "db") (.error "db")
            (.ok [⟨"a", 1, 10⟩, ⟨"b", 2, 20⟩])).usage.APIs =
          some [("persistent_db_source", dbApi)] ∧
        dbApi.Models = [("a", ⟨1, 10⟩), ("b", ⟨2, 20⟩)] ∧
        dbApi.TotalRequests = 3 ∧ dbApi.TotalTokens = 30 := by
  obtain ⟨dbApi, hapi, hmodels, -, -, hreq, htok⟩ :=
    GetUsageStatistics_source_totals (fun s : StatisticsSnapshot => s) none (.error "db")
      (.error "db") [⟨"a", 1, 10⟩, ⟨"b", 2, 20⟩] (by decide) (by decide)
  have hm : dbApi.Models = [("a", ⟨1, 10⟩), ("b", ⟨2, 20⟩)] := hmodels
  rw [hm] at hreq htok
  exact ⟨by decide, by decide, dbApi, hapi, hm, hreq (by decide) (by decide),
    htok (by decide) (by decide)⟩

/-- C8 as stated fails on the list `[("a", 9223372036854775807, 1), ("b", 1, 1)]`:
the mapping of the synthetic source holds both models, whose request counts sum
to `2 ^ 63`, and the source's total requests are `-2 ^ 63`, the 64-bit sum. -/
theorem GetUsageStatistics_source_totals_overflow :
    (GetUsageStatistics (fun s : StatisticsSnapshot => s) none (.error "db") (.error "db")
        (.ok [⟨"a", 9223372036854775807, 1⟩, ⟨"b", 1, 1⟩])).usage.APIs =
      some [("persistent_db_source",
        ⟨-9223372036854775808, 2, [("a", ⟨9223372036854775807, 1⟩), ("b", ⟨1, 1⟩)]⟩)] ∧
    (-9223372036854775808 : Int) ≠
      ([("a", (⟨9223372036854775807, 1⟩ : ModelSnapshot)), ("b", ⟨1, 1⟩)].map
        (fun e => e.2.TotalRequests)).sum := by
  constructor
  · rfl
  · decide

end management

/-! ## Model policy: the claims -/

namespace middleware

theorem allowedLoop_eq_true_iff (model : String) (models : List String) :
    allowedLoop model models = true ↔ model ∈ models := by
  induction models with
  | nil => simp [allowedLoop]
  | cons m rest ih =>
    by_cases h : m = model
    · simp [allowedLoop, h]
    · have h' : ¬ model = m := fun hm => h hm.symm
      simp [allowedLoop, h, h', ih]

/-- C10 (amended): for every authenticated managed key and every request body
that was read, the request is let through if and only if the allow-list is
empty, or the model extracted from the body is the empty string, or it is an
element of the allow-list; in every other case the request is aborted with
status 403 and a `permission_error` / `model_not_allowed` body. -/
theorem EnforceModelPolicy_decision (gjsonGet : List UInt8 → String → String)
    (managedKey : database.ManagedKey) (bodyBytes : List UInt8) :
    (EnforceModelPolicy gjsonGet ⟨some (.managedKey (some managedKey)), .ok bodyBytes⟩ = .next ↔
        (managedKey.AllowedModels = [] ∨ gjsonGet bodyBytes "model" = "" ∨
          gjsonGet bodyBytes "model" ∈ managedKey.AllowedModels)) ∧
      (¬ (managedKey.AllowedModels = [] ∨ gjsonGet bodyBytes "model" = "" ∨
            gjsonGet bodyBytes "model" ∈ managedKey.AllowedModels) →
        EnforceModelPolicy gjsonGet ⟨some (.managedKey (some managedKey)), .ok bodyBytes⟩ =
          .abort 403
            (.permission
              ("Model '" ++ gjsonGet bodyBytes "model" ++ "' is not allowed for this API key")
              "permission_error" "model_not_allowed")) := by
  by_cases hempty : managedKey.AllowedModels = []
  · simp [EnforceModelPolicy, hempty]
  · have hlen : ¬ managedKey.AllowedModels.length = 0 := by
      simpa [List.length_eq_zero] using hempty
    by_cases hmodel : gjsonGet bodyBytes "model" = ""
    · simp [EnforceModelPolicy, hlen, hmodel]
    · by_cases hin : gjsonGet bodyBytes "model" ∈ managedKey.AllowedModels
      · have hloop := (allowedLoop_eq_true_iff _ _).mpr hin
        simp [EnforceModelPolicy, hlen, hmodel, hin, hloop]
      · have hloop : allowedLoop (gjsonGet bodyBytes "model") managedKey.AllowedModels = false := by
          rw [← Bool.not_eq_true, allowedLoop_eq_true_iff]
          exact hin
        simp [EnforceModelPolicy, hlen, hmodel, hin, hloop, hempty]

/-- C10 as stated fails: with allow-list `["gpt-4"]` and the body `{}`, which
carries no `model` member, the request is let through, though the list is not
empty and the extracted model, the empty string, is not in it. -/
theorem EnforceModelPolicy_missing_model_passes :
    EnforceModelPolicy gjsonGetAbsent
        ⟨some (.managedKey (some ⟨["gpt-4"]⟩)), .ok [123, 125]⟩ = .next ∧
      ¬ (["gpt-4"] = ([] : List String) ∨ gjsonGetAbsent [123, 125] "model" ∈ ["gpt-4"]) := by
  constructor
  · rfl
  · decide

end middleware

end CliProxy
